import Mathlib

/-!
Verification of the `remark-scoped-mdx` document-tree rewrite engine.

The definitions below are a shallow embedding of `src/plugin.ts` (the
two-phase scoped rewrite engine) and `src/registry-adapter.ts` (the
name-expansion utility), plus the data model from `src/types.ts`.

Conventions of the embedding:
  - JavaScript objects used as string-keyed records become association
    lists `List (String × _)`; `Object.entries` order is the list order.
  - An optional record field (`renameFlow?:`) that the code distinguishes
    by key presence (`Object.hasOwn`) versus truthiness is modelled by the
    three-state `RenameFlowField`.
  - In-place mutation is modelled functionally: each traversal returns the
    rewritten tree together with a log of the tree positions (paths of
    child indices) at which `applyFlowRename` was invoked, and — for the
    outer traversal — a log of the positions at which the outer visitor
    (scope discovery) fired.  A node object is "mutated" by the engine
    exactly when its position is recorded in the rename log.
  - A thrown JavaScript error is `Except.error` carrying the message.
-/

namespace ScopedMdx

/-! ### Prop values and the attribute value encoder

`MdxPropValue` is `unknown` in the source; we model the closed set of
data shapes the ESTree serializer (`estree-util-value-to-estree`)
supports, plus `pvUnserializable` for values it rejects (live handles,
functions, ...). -/

inductive MdxPropValue where
  | pvNull
  | pvBool (b : Bool)
  | pvNum (n : Int)
  | pvStr (s : String)
  | pvList (xs : List MdxPropValue)
  | pvObj (fields : List (String × MdxPropValue))
  | pvUnserializable (descr : String)

/-- ESTree expressions, as produced by `valueToEstree`. -/
inductive EstreeExpr where
  | literalNull
  | literalBool (b : Bool)
  | literalNum (n : Int)
  | literalStr (s : String)
  | arrayExpr (xs : List EstreeExpr)
  | objectExpr (fields : List (String × EstreeExpr))

/-- An ESTree `Program` whose body is a single `ExpressionStatement`
wrapping the given expression (the wrapper built by
`createAttributeValueExpression`). -/
structure EstreeProgram where
  expression : EstreeExpr

/-- Message of the error thrown by `valueToEstree` on unsupported input. -/
def unsupportedValueMessage (descr : String) : String :=
  "Unsupported value: " ++ descr

mutual
/-- Model of the external `valueToEstree` serializer: converts a value to
a structural ESTree expression, failing on unsupported values. -/
def valueToEstree : MdxPropValue → Except String EstreeExpr
  | .pvNull => .ok .literalNull
  | .pvBool b => .ok (.literalBool b)
  | .pvNum n => .ok (.literalNum n)
  | .pvStr s => .ok (.literalStr s)
  | .pvList xs =>
    match valueToEstreeList xs with
    | .error e => .error e
    | .ok es => .ok (.arrayExpr es)
  | .pvObj fields =>
    match valueToEstreeFields fields with
    | .error e => .error e
    | .ok fs => .ok (.objectExpr fs)
  | .pvUnserializable descr => .error (unsupportedValueMessage descr)

def valueToEstreeList : List MdxPropValue → Except String (List EstreeExpr)
  | [] => .ok []
  | v :: rest =>
    match valueToEstree v with
    | .error e => .error e
    | .ok ev =>
      match valueToEstreeList rest with
      | .error e => .error e
      | .ok evs => .ok (ev :: evs)

def valueToEstreeFields :
    List (String × MdxPropValue) → Except String (List (String × EstreeExpr))
  | [] => .ok []
  | (k, v) :: rest =>
    match valueToEstree v with
    | .error e => .error e
    | .ok ev =>
      match valueToEstreeFields rest with
      | .error e => .error e
      | .ok evs => .ok ((k, ev) :: evs)
end

/-- Source `createAttributeValueExpression`: serialize the value and wrap
the resulting expression in a `Program` (the `data.estree` channel); the
`value` string channel is intentionally empty. -/
def createAttributeValueExpression (value : MdxPropValue) :
    Except String (String × EstreeProgram) :=
  match valueToEstree value with
  | .error e => .error e
  | .ok expression => .ok ("", ⟨expression⟩)

/-- Attribute value in the MDX JSX AST: `nullV` is boolean attribute
presence (`value: null`), `exprV` is an `mdxJsxAttributeValueExpression`
carrying the raw-source string channel and the `data.estree` program. -/
inductive MdxAttrValue where
  | nullV
  | exprV (value : String) (estree : EstreeProgram)

/-- An `mdxJsxAttribute` node. -/
structure MdxJsxAttribute where
  name : String
  value : MdxAttrValue

/-- The wrapped message thrown by `toMdxAttribute` when serialization of
one prop fails; it names the failing prop. -/
def serializationFailureMessage (propName msg : String) : String :=
  "Failed to serialize MDX prop \"" ++ propName ++
    "\" into an attribute expression: " ++ msg

/-- Source `toMdxAttribute`: `true` becomes boolean attribute presence;
every other value goes through the expression encoder, and an encoder
failure is re-thrown wrapped with the prop name. -/
def toMdxAttribute (propName : String) (propValue : MdxPropValue) :
    Except String MdxJsxAttribute :=
  match propValue with
  | .pvBool true => .ok ⟨propName, .nullV⟩
  | v =>
    match createAttributeValueExpression v with
    | .ok (s, prog) => .ok ⟨propName, .exprV s prog⟩
    | .error msg => .error (serializationFailureMessage propName msg)

/-- Iteration core of `buildAttributes`: entries whose value is
`undefined` (here `none`) emit no attribute. -/
def buildAttributesList :
    List (String × Option MdxPropValue) → Except String (List MdxJsxAttribute)
  | [] => .ok []
  | (_, none) :: rest => buildAttributesList rest
  | (n, some v) :: rest =>
    match toMdxAttribute n v with
    | .error e => .error e
    | .ok attr =>
      match buildAttributesList rest with
      | .error e => .error e
      | .ok attrs => .ok (attr :: attrs)

/-- Source `buildAttributes`: a missing props object yields no
attributes. -/
def buildAttributes (props : Option (List (String × Option MdxPropValue))) :
    Except String (List MdxJsxAttribute) :=
  match props with
  | none => .ok []
  | some entries => buildAttributesList entries

/-! ### The document tree -/

/-- A node of the document tree: `flow` is an `mdxJsxFlowElement`
(name `none` models a fragment, whose `name` is `null`); `other` covers
every other mdast node kind (paragraphs, text, inline JSX, ...), opaque
to the engine except that traversal descends through its children. -/
inductive MdxNode where
  | flow (name : Option String) (attributes : List MdxJsxAttribute)
      (children : List MdxNode)
  | other (kind : String) (children : List MdxNode)

def MdxNode.childrenOf : MdxNode → List MdxNode
  | .flow _ _ cs => cs
  | .other _ cs => cs

/-- The tag name of a node, when it is a named flow element
(`isNamedMdxJsxFlowElement` in the source holds exactly when this is
`some`). -/
def MdxNode.nodeName : MdxNode → Option String
  | .flow n _ _ => n
  | .other _ _ => none

/-! ### Registry data model (`src/types.ts`) -/

inductive ChildrenPolicy where
  | preserve
  | clear
deriving DecidableEq

structure MdxRewriteOptions where
  childrenPolicy : Option ChildrenPolicy

structure MdxComponentSpec where
  name : String
  props : Option (List (String × Option MdxPropValue))

structure MdxRenameTarget where
  component : MdxComponentSpec
  transformOptions : Option MdxRewriteOptions

/-- The `renameFlow?:` field of a rule.  JavaScript distinguishes the key
being absent (`Object.hasOwn` false), present with value `undefined`
(own key, falsy), and present with an object (truthy — even when the
object is empty). -/
inductive RenameFlowField where
  | absent
  | declaredUndefined
  | declared (entries : List (String × MdxRenameTarget))

structure MdxTransformRule where
  renameFlow : RenameFlowField

abbrev ScopedMdxTransformRegistry : Type :=
  List (String × MdxTransformRule)

/-- Association-list lookup, modelling string-keyed record access. -/
def lookupStr {α : Type} : List (String × α) → String → Option α
  | [], _ => none
  | (n, v) :: rest, k => if n = k then some v else lookupStr rest k

/-- The `Object.hasOwn(rule, 'renameFlow')` presence test used by
`shouldProcessScope`. -/
def hasOwnRenameFlow (rule : MdxTransformRule) : Bool :=
  match rule.renameFlow with
  | .absent => false
  | _ => true

/-- The active scope names precomputed by `shouldProcessScope`: registry
keys whose entry explicitly declares `renameFlow` (presence, not
truthiness). -/
def activeScopeNames (registry : ScopedMdxTransformRegistry) : List String :=
  (registry.filter (fun e => hasOwnRenameFlow e.2)).map (fun e => e.1)

/-- The set `remarkScopedMdx` passes to the visitor for boundary checks:
`new Set(Object.keys(registry))` — all registry keys. -/
def scopeComponentNames (registry : ScopedMdxTransformRegistry) : List String :=
  registry.map (fun e => e.1)

/-- The predicate produced by `shouldProcessScope`: a named MDX JSX flow
element whose name is an active scope name. -/
def shouldProcessScope (registry : ScopedMdxTransformRegistry)
    (node : MdxNode) : Bool :=
  match node.nodeName with
  | some n => (activeScopeNames registry).contains n
  | none => false

/-- The truthiness test `if (!renameFlow) return` applied by the scope
visitor to the resolved rule: only a declared object (even an empty one)
passes. -/
def truthyRenameFlow : RenameFlowField → Option (List (String × MdxRenameTarget))
  | .declared m => some m
  | _ => none

/-- Rule resolution at the head of the scope visitor:
`registry[scopeElement.name]?.renameFlow`, then the truthiness guard. -/
def activeRenameFlow (registry : ScopedMdxTransformRegistry) (n : String) :
    Option (List (String × MdxRenameTarget)) :=
  match lookupStr registry n with
  | some rule => truthyRenameFlow rule.renameFlow
  | none => none

/-! ### The rename applier -/

/-- The mutable fields of a flow element, for `applyFlowRename`. -/
structure FlowFields where
  name : Option String
  attributes : List MdxJsxAttribute
  children : List MdxNode

/-- The `target.transformOptions?.childrenPolicy === 'clear'` test. -/
def isClearPolicy (target : MdxRenameTarget) : Bool :=
  match target.transformOptions with
  | some opts => opts.childrenPolicy = some .clear
  | none => false

/-- Source `applyFlowRename`: set the tag name to the target component
name, replace the attribute list with one built from the target props,
and clear the children exactly when the children policy is `clear`. -/
def applyFlowRename (element : FlowFields) (target : MdxRenameTarget) :
    Except String FlowFields :=
  match buildAttributes target.component.props with
  | .error e => .error e
  | .ok attrs =>
    .ok ⟨some target.component.name, attrs,
      if isClearPolicy target then [] else element.children⟩

/-- On success, the children stored by `applyFlowRename` are exactly the
input children, or empty under the `clear` policy.  The traversal below
descends into this very list. -/
theorem applyFlowRename_ok_children (element : FlowFields)
    (target : MdxRenameTarget) (fd : FlowFields)
    (h : applyFlowRename element target = .ok fd) :
    fd.children = if isClearPolicy target then [] else element.children := by
  unfold applyFlowRename at h
  cases hb : buildAttributes target.component.props <;> rw [hb] at h
  · exact absurd h (by simp)
  · cases h
    rfl

/-! ### Tree measure, for termination of the traversals -/

mutual
def countNode : MdxNode → Nat
  | .flow _ _ cs => 1 + countList cs
  | .other _ cs => 1 + countList cs

def countList : List MdxNode → Nat
  | [] => 0
  | c :: cs => countNode c + countList cs
end

/-! ### The inner traversal (scope boundary walker)

`innerL sn rf i cs` walks the sibling list `cs` (whose first element has
child index `i` in its parent) exactly as the `visit(scopeElement, ...)`
call inside `createScopeVisitor` walks the descendants of a scope root:
pre-order; a named flow element whose name is in `sn` is a nested-scope
boundary (`SKIP`: untouched, not descended into); otherwise a hit in the
rename map `rf` rewrites the node in place via `applyFlowRename` before
descending into its (possibly cleared) children.  It returns the
rewritten list and the log of positions passed to `applyFlowRename`. -/
def innerL (sn : List String) (rf : List (String × MdxRenameTarget)) :
    Nat → List MdxNode → Except String (List MdxNode × List (List Nat))
  | _, [] => .ok ([], [])
  | i, .flow (some k) a ch :: rest =>
    if k ∈ sn then
      match innerL sn rf (i+1) rest with
      | .error e => .error e
      | .ok (rest2, lr) => .ok (.flow (some k) a ch :: rest2, lr)
    else
      match lookupStr rf k with
      | some target =>
        match applyFlowRename ⟨some k, a, ch⟩ target with
        | .error e => .error e
        | .ok fd =>
          match innerL sn rf 0 (if isClearPolicy target then [] else ch) with
          | .error e => .error e
          | .ok (ch2, lc) =>
            match innerL sn rf (i+1) rest with
            | .error e => .error e
            | .ok (rest2, lr) =>
              .ok (.flow fd.name fd.attributes ch2 :: rest2,
                ([i] :: lc.map (fun p => i :: p)) ++ lr)
      | none =>
        match innerL sn rf 0 ch with
        | .error e => .error e
        | .ok (ch2, lc) =>
          match innerL sn rf (i+1) rest with
          | .error e => .error e
          | .ok (rest2, lr) =>
            .ok (.flow (some k) a ch2 :: rest2, lc.map (fun p => i :: p) ++ lr)
  | i, .flow none a ch :: rest =>
    match innerL sn rf 0 ch with
    | .error e => .error e
    | .ok (ch2, lc) =>
      match innerL sn rf (i+1) rest with
      | .error e => .error e
      | .ok (rest2, lr) =>
        .ok (.flow none a ch2 :: rest2, lc.map (fun p => i :: p) ++ lr)
  | i, .other kd ch :: rest =>
    match innerL sn rf 0 ch with
    | .error e => .error e
    | .ok (ch2, lc) =>
      match innerL sn rf (i+1) rest with
      | .error e => .error e
      | .ok (rest2, lr) =>
        .ok (.other kd ch2 :: rest2, lc.map (fun p => i :: p) ++ lr)
termination_by _ cs => countList cs
decreasing_by
  all_goals simp [countList, countNode]
  all_goals try split
  all_goals first
  | omega
  | (simp [countList]; try omega)

theorem innerL_count (sn : List String)
    (rf : List (String × MdxRenameTarget)) (i : Nat) (cs cs2 : List MdxNode)
    (l : List (List Nat)) (h : innerL sn rf i cs = .ok (cs2, l)) :
    countList cs2 ≤ countList cs := by
  induction i, cs using innerL.induct sn rf generalizing cs2 l
  all_goals simp_all [innerL]
  all_goals try obtain ⟨hcs, hl⟩ := h
  all_goals try subst hcs
  all_goals simp_all [countList, countNode]
  all_goals first
  | omega
  | (rename_i ih2 ih1
     revert ih2
     split <;> intro ih2 <;> (try simp [countList] at ih2) <;> omega)

/-- The inner traversal together with the size bound on its output; this
is `innerL` packaged so that the outer traversal, which recurses into the
inner traversal's output, is evidently terminating. -/
def innerB (sn : List String) (rf : List (String × MdxRenameTarget))
    (i : Nat) (cs : List MdxNode) :
    Except String
      {r : List MdxNode × List (List Nat) // countList r.1 ≤ countList cs} :=
  match h : innerL sn rf i cs with
  | .error e => .error e
  | .ok r => .ok ⟨r, innerL_count sn rf i cs r.1 r.2 (by rw [h])⟩

theorem innerB_ok_iff (sn : List String)
    (rf : List (String × MdxRenameTarget)) (i : Nat) (cs : List MdxNode)
    (r : List MdxNode × List (List Nat))
    (hb : countList r.1 ≤ countList cs) :
    innerB sn rf i cs = .ok ⟨r, hb⟩ ↔ innerL sn rf i cs = .ok r := by
  unfold innerB
  split <;> simp_all

theorem innerB_error_iff (sn : List String)
    (rf : List (String × MdxRenameTarget)) (i : Nat) (cs : List MdxNode)
    (e : String) :
    innerB sn rf i cs = .error e ↔ innerL sn rf i cs = .error e := by
  unfold innerB
  split <;> simp_all

/-! ### The outer traversal (scope discovery)

`outerL registry sn active i cs` walks the sibling list `cs` (first
child index `i`) exactly as `visit(tree, shouldProcessScope(registry),
visitor)` does: every named flow element whose name is in `active` fires
the visitor, which resolves the rule (`activeRenameFlow`) and, when the
rule's `renameFlow` is truthy, runs the inner traversal over the node's
subtree; the visitor returns `undefined`, so the outer walk then
descends into the node's (inner-rewritten) children.  Results: the
rewritten list, the positions passed to `applyFlowRename` (by the inner
walks), and the positions at which the outer visitor fired. -/
def outerL (registry : ScopedMdxTransformRegistry) (sn active : List String) :
    Nat → List MdxNode →
      Except String (List MdxNode × List (List Nat) × List (List Nat))
  | _, [] => .ok ([], [], [])
  | i, .flow (some n) a ch :: rest =>
    if n ∈ active then
      match activeRenameFlow registry n with
      | some rfn =>
        match innerB sn rfn 0 ch with
        | .error e => .error e
        | .ok ⟨(ch1, il), _⟩ =>
          match outerL registry sn active 0 ch1 with
          | .error e => .error e
          | .ok (ch2, rl2, sl2) =>
            match outerL registry sn active (i+1) rest with
            | .error e => .error e
            | .ok (rest2, rlr, slr) =>
              .ok (.flow (some n) a ch2 :: rest2,
                (il.map (fun p => i :: p) ++ rl2.map (fun p => i :: p)) ++ rlr,
                ([i] :: sl2.map (fun p => i :: p)) ++ slr)
      | none =>
        match outerL registry sn active 0 ch with
        | .error e => .error e
        | .ok (ch2, rl2, sl2) =>
          match outerL registry sn active (i+1) rest with
          | .error e => .error e
          | .ok (rest2, rlr, slr) =>
            .ok (.flow (some n) a ch2 :: rest2,
              rl2.map (fun p => i :: p) ++ rlr,
              ([i] :: sl2.map (fun p => i :: p)) ++ slr)
    else
      match outerL registry sn active 0 ch with
      | .error e => .error e
      | .ok (ch2, rl2, sl2) =>
        match outerL registry sn active (i+1) rest with
        | .error e => .error e
        | .ok (rest2, rlr, slr) =>
          .ok (.flow (some n) a ch2 :: rest2,
            rl2.map (fun p => i :: p) ++ rlr,
            sl2.map (fun p => i :: p) ++ slr)
  | i, .flow none a ch :: rest =>
    match outerL registry sn active 0 ch with
    | .error e => .error e
    | .ok (ch2, rl2, sl2) =>
      match outerL registry sn active (i+1) rest with
      | .error e => .error e
      | .ok (rest2, rlr, slr) =>
        .ok (.flow none a ch2 :: rest2,
          rl2.map (fun p => i :: p) ++ rlr,
          sl2.map (fun p => i :: p) ++ slr)
  | i, .other kd ch :: rest =>
    match outerL registry sn active 0 ch with
    | .error e => .error e
    | .ok (ch2, rl2, sl2) =>
      match outerL registry sn active (i+1) rest with
      | .error e => .error e
      | .ok (rest2, rlr, slr) =>
        .ok (.other kd ch2 :: rest2,
          rl2.map (fun p => i :: p) ++ rlr,
          sl2.map (fun p => i :: p) ++ slr)
termination_by _ cs => countList cs
decreasing_by
  all_goals simp [countList, countNode]
  all_goals try omega
  all_goals simp_all
  all_goals omega

/-- The whole-tree transformation of `remarkScopedMdx`'s transformer,
instrumented: `visit(tree, shouldProcessScope(registry), visitor)` with
the boundary set `scopeComponentNames` (all registry keys) and the
discovery set `activeScopeNames` (keys with declared `renameFlow`).  The
single-element list `[tree]` makes the root a visitable node (position
`[0]`); results are the rewritten tree, the rename log and the scope
discovery log. -/
def runScoped (registry : ScopedMdxTransformRegistry) (tree : MdxNode) :
    Except String (List MdxNode × List (List Nat) × List (List Nat)) :=
  outerL registry (scopeComponentNames registry) (activeScopeNames registry)
    0 [tree]

/-- The transformer itself: the mutated tree handed back to the pipeline
(or the propagated error). -/
def remarkScopedMdx (registry : ScopedMdxTransformRegistry)
    (tree : MdxNode) : Except String MdxNode :=
  match runScoped registry tree with
  | .error e => .error e
  | .ok (ts, _, _) => .ok (ts.headD tree)

/-! ### Tree positions

A position is the path of child indices from the root list handed to a
traversal; `nodeAtL cs i0 p` resolves position `p` in the sibling list
`cs` whose first element has index `i0`. -/

def nodeAtL : List MdxNode → Nat → List Nat → Option MdxNode
  | _, _, [] => none
  | [], _, _ :: _ => none
  | c :: rest, i0, [i] =>
    if i = i0 then some c else nodeAtL rest (i0+1) [i]
  | c :: rest, i0, i :: j :: p =>
    if i = i0 then nodeAtL c.childrenOf 0 (j :: p)
    else nodeAtL rest (i0+1) (i :: j :: p)
termination_by cs _ _ => countList cs
decreasing_by
  all_goals simp [countList, countNode]
  all_goals cases c <;> simp [MdxNode.childrenOf, countNode] <;> omega

/-- `underPath p q = true` iff `q` is a prefix of `p`, i.e. the node at
`p` lies at or below the node at `q`. -/
def underPath : List Nat → List Nat → Bool
  | _, [] => true
  | [], _ :: _ => false
  | i :: p, j :: q => i == j && underPath p q

/-- There is a flow element named `x` at position `p` of the sibling
list `cs` (first child index `i0`). -/
def namedAt (cs : List MdxNode) (i0 : Nat) (p : List Nat) (x : String) : Prop :=
  ∃ u, nodeAtL cs i0 p = some u ∧ u.nodeName = some x

/-- No node named `tS` sits at or above position `p` (within the sibling
list `cs`): position `p` is outside every `tS`-rooted subtree. -/
def noScopeAbove (tS : String) (cs : List MdxNode) (i0 : Nat)
    (p : List Nat) : Prop :=
  ∀ q, underPath p q = true → ¬ namedAt cs i0 q tS

/-! ### Registry adapter (`src/registry-adapter.ts`) -/

/-- One entry of the rich application registry, as seen by the adapter:
only the optional `mdxTransform` metadata is accessed. -/
structure TransformAwareEntry where
  mdxTransform : Option MdxTransformRule

abbrev TransformAwareRegistry : Type :=
  List (String × TransformAwareEntry)

/-- Source `deriveMdxTransformRegistry`: keep exactly the definitions
that declare (truthy) `mdxTransform`. -/
def deriveMdxTransformRegistry (componentDefinitions : TransformAwareRegistry) :
    ScopedMdxTransformRegistry :=
  componentDefinitions.filterMap (fun e =>
    match e.2.mdxTransform with
    | some rule => some (e.1, rule)
    | none => none)

/-- JavaScript `Set.prototype.add` on an insertion-ordered set. -/
def setAdd (s : List String) (x : String) : List String :=
  if x ∈ s then s else s ++ [x]

/-- Source `addRenameFlowTargets`: no-op when `renameFlow` is falsy,
otherwise add every rename target's component name. -/
def addRenameFlowTargets (expanded : List String)
    (renameFlow : RenameFlowField) : List String :=
  match truthyRenameFlow renameFlow with
  | none => expanded
  | some m => m.foldl (fun acc e => setAdd acc e.2.component.name) expanded

/-- Source `expandHydratedComponentNames`: start from a copy of the
input set and, for each input name that resolves to a registry entry
with a (truthy) `mdxTransform` rule, add that rule's rename targets. -/
def expandHydratedComponentNames (componentNames : List String)
    (componentDefinitions : TransformAwareRegistry) : List String :=
  componentNames.foldl
    (fun expanded name =>
      match lookupStr componentDefinitions name with
      | none => expanded
      | some entry =>
        match entry.mdxTransform with
        | none => expanded
        | some rule => addRenameFlowTargets expanded rule.renameFlow)
    (componentNames.foldl setAdd [])

/-- Rendering of the specification's words for claim C9 ("every rewrite
target name reachable through any declared rename map" of the registry),
to be compared with what `expandHydratedComponentNames` computes: all
rename-flow target component names of all registry entries. -/
def specReachableTargets (componentDefinitions : TransformAwareRegistry) :
    List String :=
  componentDefinitions.foldr
    (fun e acc =>
      (match e.2.mdxTransform with
       | some rule =>
         match truthyRenameFlow rule.renameFlow with
         | some m => m.map (fun pr => pr.2.component.name)
         | none => []
       | none => []) ++ acc)
    []

/-! ### Helper views of a registry -/

/-- Source tag names (keys) of a rename map. -/
def rfKeys (rf : List (String × MdxRenameTarget)) : List String :=
  rf.map (fun e => e.1)

/-- Target component names of a rename map. -/
def rfTargetNames (rf : List (String × MdxRenameTarget)) : List String :=
  rf.map (fun e => e.2.component.name)

/-- All rename target component names reachable from any truthy rename
map of the scoped registry. -/
def registryTargetNames (registry : ScopedMdxTransformRegistry) :
    List String :=
  registry.foldr
    (fun e acc =>
      (match truthyRenameFlow e.2.renameFlow with
       | some m => rfTargetNames m
       | none => []) ++ acc)
    []

/-! ### Evolution relation, for the frame property (claim C1)

`EvG tns tT tS g u0 u` says: `u` is a possible in-flight state of the
subtree originally `u0`, where every rename so far used a target name
from `tns`, and — unless `g` is set, meaning some node named `tS` sits
strictly above this subtree — no node originally named `tT` outside a
`tS`-rooted subtree has been renamed.  The guard is switched on when
passing a node originally named `tS`. -/

mutual
inductive EvG (tns : List String) (tT tS : String) :
    Bool → MdxNode → MdxNode → Prop where
  | other {g : Bool} {k : String} {cs cs' : List MdxNode} :
      EvGList tns tT tS g cs cs' →
      EvG tns tT tS g (.other k cs) (.other k cs')
  | keep {g : Bool} {n : Option String} {a : List MdxJsxAttribute}
      {cs cs' : List MdxNode} :
      EvGList tns tT tS (g || decide (n = some tS)) cs cs' →
      EvG tns tT tS g (.flow n a cs) (.flow n a cs')
  | ren {g : Bool} {n : Option String} {a a2 : List MdxJsxAttribute}
      {cs cs' : List MdxNode} {t : String} :
      t ∈ tns → (g = true ∨ n ≠ some tT) →
      EvGList tns tT tS (g || decide (n = some tS)) cs cs' →
      EvG tns tT tS g (.flow n a cs) (.flow (some t) a2 cs')
  | renClear {g : Bool} {n : Option String} {a a2 : List MdxJsxAttribute}
      {cs : List MdxNode} {t : String} :
      t ∈ tns → (g = true ∨ n ≠ some tT) →
      EvG tns tT tS g (.flow n a cs) (.flow (some t) a2 [])

inductive EvGList (tns : List String) (tT tS : String) :
    Bool → List MdxNode → List MdxNode → Prop where
  | nil {g : Bool} : EvGList tns tT tS g [] []
  | cons {g : Bool} {c c' : MdxNode} {cs cs' : List MdxNode} :
      EvG tns tT tS g c c' → EvGList tns tT tS g cs cs' →
      EvGList tns tT tS g (c :: cs) (c' :: cs')
end

/-! ### Concrete fixtures used by counterexamples and witnesses -/

/-- A rename target with the given component name, no props and no
transform options. -/
def mkTarget (n : String) : MdxRenameTarget := ⟨⟨n, none⟩, none⟩

/-- Registry for claim C5's counterexample: scope `S` renames `p` to the
scope name `Inner` and `q` to `u`; scope `Inner` renames `u` to `v`. -/
def regC5 : ScopedMdxTransformRegistry :=
  [("S", ⟨.declared [("p", mkTarget "Inner"), ("q", mkTarget "u")]⟩),
   ("Inner", ⟨.declared [("u", mkTarget "v")]⟩)]

/-- Tree for claim C5's counterexample: `root > S > p > q`. -/
def treeC5 : MdxNode :=
  .other "root"
    [.flow (some "S") [] [.flow (some "p") [] [.flow (some "q") [] []]]]

/-- Registry for claim C1's counterexample: scope `A` renames `b` to the
scope name `S`; scope `S` renames `T` to `Z`. -/
def regC1 : ScopedMdxTransformRegistry :=
  [("A", ⟨.declared [("b", mkTarget "S")]⟩),
   ("S", ⟨.declared [("T", mkTarget "Z")]⟩)]

/-- Tree for claim C1's counterexample: `root > A > b > T`; the `T` node
has no ancestor named `S`. -/
def treeC1 : MdxNode :=
  .other "root"
    [.flow (some "A") [] [.flow (some "b") [] [.flow (some "T") [] []]]]

/-- Registry for claim C4's counterexample: two scopes with declared
(empty) rename maps. -/
def regC4 : ScopedMdxTransformRegistry :=
  [("Outer", ⟨.declared []⟩), ("Inner", ⟨.declared []⟩)]

/-- Tree for claim C4's counterexample: `root > Outer > Inner`. -/
def treeC4 : MdxNode :=
  .other "root" [.flow (some "Outer") [] [.flow (some "Inner") [] []]]

/-- Registry for claim C3's counterexample: one entry that does not
declare `renameFlow` at all. -/
def regC3 : ScopedMdxTransformRegistry := [("B", ⟨.absent⟩)]

/-- Authoring registry for claim C9's counterexample: entry `S` declares
a rename map whose only target is `X`. -/
def defsC9 : TransformAwareRegistry :=
  [("S", ⟨some ⟨.declared [("p", mkTarget "X")]⟩⟩)]

/-- Registry for claim C8's theorem, parameterised by the prop: scope
`Scope` renames `bad` to `Target` with a single prop. -/
def regC8 (propName : String) (v : MdxPropValue) : ScopedMdxTransformRegistry :=
  [("Scope", ⟨.declared
    [("bad", ⟨⟨"Target", some [(propName, some v)]⟩, none⟩)]⟩)]

/-- Tree for claim C8's theorem, with arbitrary attribute lists and
arbitrary children below the matched node: `root > Scope > bad`. -/
def treeC8 (a a2 : List MdxJsxAttribute) (ch2 rest : List MdxNode) : MdxNode :=
  .other "root" [.flow (some "Scope") a (.flow (some "bad") a2 ch2 :: rest)]

/-! ### Basic facts about the inner traversal wrapper -/

theorem innerB_eval (sn : List String) (rf : List (String × MdxRenameTarget))
    (i : Nat) (cs : List MdxNode) (r : List MdxNode × List (List Nat))
    (hb : countList r.1 ≤ countList cs)
    (h : innerL sn rf i cs = .ok r) : innerB sn rf i cs = .ok ⟨r, hb⟩ :=
  (innerB_ok_iff sn rf i cs r hb).mpr h

/-! ### Claim C6: children policy of the rename applier -/

/-- Claim C6: for every matched node and rewrite target, if the target's
children policy is `clear` the rename applier leaves the node with an
empty children list regardless of its prior length; if the policy is
`preserve` or unspecified, the children list is the untouched input
list. -/
theorem c6_children_policy (name : Option String)
    (attrs : List MdxJsxAttribute) (children : List MdxNode)
    (target : MdxRenameTarget) (fd : FlowFields)
    (h : applyFlowRename ⟨name, attrs, children⟩ target = .ok fd) :
    ((∃ opts, target.transformOptions = some opts ∧
        opts.childrenPolicy = some .clear) → fd.children = []) ∧
    ((∀ opts, target.transformOptions = some opts →
        opts.childrenPolicy ≠ some .clear) → fd.children = children) := by
  have hc := applyFlowRename_ok_children _ _ _ h
  constructor
  · rintro ⟨opts, hopt, hcp⟩
    rw [hc]
    simp [isClearPolicy, hopt, hcp]
  · intro hno
    rw [hc]
    have hfalse : isClearPolicy target = false := by
      unfold isClearPolicy
      cases ho : target.transformOptions with
      | none => rfl
      | some opts => simpa using hno opts ho
    simp [hfalse]

theorem c6_children_policy_witness :
    applyFlowRename ⟨some "br", [], [.other "text" []]⟩
        ⟨⟨"Blank", none⟩, some ⟨some ChildrenPolicy.clear⟩⟩ =
      .ok ⟨some "Blank", [], []⟩ ∧
    (⟨some "Blank", [], []⟩ : FlowFields).children = [] :=
  ⟨rfl, (c6_children_policy (some "br") [] [.other "text" []]
      ⟨⟨"Blank", none⟩, some ⟨some ChildrenPolicy.clear⟩⟩
      ⟨some "Blank", [], []⟩ rfl).1 ⟨⟨some ChildrenPolicy.clear⟩, rfl, rfl⟩⟩

/-! ### Claim C7: boolean fast path of the attribute builder -/

/-- Claim C7: for every attribute name, a value of exactly `true` yields
a presence-only attribute (MDX `value: null`), never an
expression-encoded `true`; every other value, when an attribute is
emitted at all, is emitted in expression form. -/
theorem c7_boolean_fast_path (propName : String) (v : MdxPropValue) :
    (v = .pvBool true → toMdxAttribute propName v = .ok ⟨propName, .nullV⟩) ∧
    (v ≠ .pvBool true → ∀ a, toMdxAttribute propName v = .ok a →
      ∃ s prog, a = ⟨propName, .exprV s prog⟩) := by
  constructor
  · rintro rfl
    rfl
  · intro hne a ha
    have hred : toMdxAttribute propName v =
        match createAttributeValueExpression v with
        | .ok (s, prog) => .ok ⟨propName, .exprV s prog⟩
        | .error msg => .error (serializationFailureMessage propName msg) := by
      cases v
      case pvBool b =>
        cases b
        · rfl
        · exact absurd rfl hne
      all_goals rfl
    rw [hred] at ha
    cases hc : createAttributeValueExpression v with
    | ok sp =>
      obtain ⟨s, prog⟩ := sp
      rw [hc] at ha
      cases ha
      exact ⟨s, prog, rfl⟩
    | error m =>
      rw [hc] at ha
      exact absurd ha (by simp)

theorem c7_boolean_fast_path_witness :
    toMdxAttribute "enabled" (.pvBool true) = .ok ⟨"enabled", .nullV⟩ ∧
    (∃ s prog,
      (⟨"variant", .exprV "" ⟨.literalStr "red"⟩⟩ : MdxJsxAttribute) =
        ⟨"variant", .exprV s prog⟩) :=
  ⟨(c7_boolean_fast_path "enabled" _).1 rfl,
   (c7_boolean_fast_path "variant" (.pvStr "red")).2
     (fun h => MdxPropValue.noConfusion h) _ rfl⟩

/-! ### Claim C10: the rename applier always replaces the attribute list -/

/-- Claim C10 (implicit): the rename applier always replaces the node's
entire attribute list — the result is independent of the matched node's
prior attributes, and a target with no (or an empty) attribute map
leaves an empty attribute list. -/
theorem c10_attribute_wipe (e1 e2 : FlowFields) (target : MdxRenameTarget)
    (fd1 fd2 : FlowFields)
    (h1 : applyFlowRename e1 target = .ok fd1)
    (h2 : applyFlowRename e2 target = .ok fd2) :
    fd1.attributes = fd2.attributes ∧
    ((target.component.props = none ∨ target.component.props = some []) →
      fd1.attributes = []) := by
  unfold applyFlowRename at h1 h2
  cases hb : buildAttributes target.component.props <;> rw [hb] at h1 h2
  · exact absurd h1 (by simp)
  · cases h1
    cases h2
    refine ⟨rfl, ?_⟩
    rintro (hp | hp) <;> rw [hp] at hb <;>
      simp only [buildAttributes, buildAttributesList] at hb <;>
      cases hb <;> rfl

theorem c10_attribute_wipe_witness :
    applyFlowRename ⟨some "p", [⟨"old", .nullV⟩], []⟩ (mkTarget "Note") =
      .ok ⟨some "Note", [], []⟩ ∧
    applyFlowRename ⟨some "p", [], [.other "text" []]⟩ (mkTarget "Note") =
      .ok ⟨some "Note", [], [.other "text" []]⟩ ∧
    (⟨some "Note", [], []⟩ : FlowFields).attributes =
      (⟨some "Note", [], [.other "text" []]⟩ : FlowFields).attributes ∧
    (⟨some "Note", [], []⟩ : FlowFields).attributes = [] := by
  refine ⟨rfl, rfl, ?_, ?_⟩
  · exact (c10_attribute_wipe ⟨some "p", [⟨"old", .nullV⟩], []⟩
      ⟨some "p", [], [.other "text" []]⟩ (mkTarget "Note") _ _ rfl rfl).1
  · exact (c10_attribute_wipe ⟨some "p", [⟨"old", .nullV⟩], []⟩
      ⟨some "p", [], [.other "text" []]⟩ (mkTarget "Note") _ _ rfl rfl).2
      (Or.inl rfl)

/-! ### Claim C3: discovery set versus boundary set -/

/-- Claim C3 counterexample: in a registry with an entry that does not
declare a rename map, the boundary-detection set (`scopeComponentNames`,
all registry keys) contains that key while the root-discovery set
(`activeScopeNames`) does not — the two sets are not the same set, and
the boundary set is not "exactly the keys with a declared rename map". -/
theorem c3_counterexample :
    "B" ∈ scopeComponentNames regC3 ∧
    "B" ∉ activeScopeNames regC3 ∧
    activeScopeNames regC3 ≠ scopeComponentNames regC3 := by
  refine ⟨?_, ?_, ?_⟩ <;>
    simp [scopeComponentNames, activeScopeNames, regC3, hasOwnRenameFlow]

/-- Claim C3 (amended): the discovery set is exactly the keys that
explicitly declare `renameFlow`, while boundary detection uses all
registry keys; the discovery set is always a subset of the boundary set,
and the two coincide when every registry entry declares `renameFlow`. -/
theorem c3_amended (registry : ScopedMdxTransformRegistry) :
    (∀ x ∈ activeScopeNames registry, x ∈ scopeComponentNames registry) ∧
    ((∀ e ∈ registry, hasOwnRenameFlow e.2 = true) →
      activeScopeNames registry = scopeComponentNames registry) := by
  constructor
  · intro x hx
    unfold activeScopeNames at hx
    unfold scopeComponentNames
    simp only [List.mem_map, List.mem_filter] at hx ⊢
    obtain ⟨e, ⟨hmem, _⟩, hfst⟩ := hx
    exact ⟨e, hmem, hfst⟩
  · intro hall
    unfold activeScopeNames scopeComponentNames
    rw [List.filter_eq_self.mpr hall]

theorem c3_amended_witness :
    ("A" ∈ scopeComponentNames [("A", ⟨.declared []⟩)]) ∧
    activeScopeNames [("A", ⟨.declared []⟩)] =
      scopeComponentNames [("A", ⟨.declared []⟩)] :=
  ⟨(c3_amended [("A", ⟨.declared []⟩)]).1 "A"
      (by simp [activeScopeNames, hasOwnRenameFlow]),
   (c3_amended [("A", ⟨.declared []⟩)]).2
      (by intro e he; simp at he; rw [he]; rfl)⟩

/-! ### Claim C9: the name-expansion utility -/

theorem mem_setAdd (s : List String) (x y : String) :
    y ∈ setAdd s x ↔ y ∈ s ∨ y = x := by
  unfold setAdd
  split <;> rename_i hmem
  · constructor
    · exact Or.inl
    · rintro (h | rfl)
      · exact h
      · exact hmem
  · simp

theorem mem_foldl_setAddBy {α : Type} (f : α → String) (xs : List α) :
    ∀ (init : List String) (y : String),
      y ∈ xs.foldl (fun acc e => setAdd acc (f e)) init ↔
        y ∈ init ∨ y ∈ xs.map f := by
  induction xs with
  | nil => simp
  | cons x rest ih =>
    intro init y
    simp only [List.foldl_cons, ih, mem_setAdd, List.map_cons, List.mem_cons]
    tauto

theorem mem_foldl_setAdd (xs init : List String) (y : String) :
    y ∈ xs.foldl setAdd init ↔ y ∈ init ∨ y ∈ xs := by
  have := mem_foldl_setAddBy (fun s => s) xs init y
  simpa using this

theorem mem_addRenameFlowTargets (expanded : List String)
    (rfF : RenameFlowField) (y : String) :
    y ∈ addRenameFlowTargets expanded rfF ↔
      y ∈ expanded ∨
        ∃ m, truthyRenameFlow rfF = some m ∧ y ∈ rfTargetNames m := by
  unfold addRenameFlowTargets
  cases htr : truthyRenameFlow rfF with
  | none => simp [htr]
  | some m =>
    rw [mem_foldl_setAddBy (fun e => e.2.component.name) m expanded y]
    simp [htr, rfTargetNames]

/-- Contribution of one looked-up name during expansion. -/
def expandStep (componentDefinitions : TransformAwareRegistry)
    (expanded : List String) (name : String) : List String :=
  match lookupStr componentDefinitions name with
  | none => expanded
  | some entry =>
    match entry.mdxTransform with
    | none => expanded
    | some rule => addRenameFlowTargets expanded rule.renameFlow

theorem expandHydratedComponentNames_eq_foldl
    (componentNames : List String)
    (componentDefinitions : TransformAwareRegistry) :
    expandHydratedComponentNames componentNames componentDefinitions =
      componentNames.foldl (expandStep componentDefinitions)
        (componentNames.foldl setAdd []) := rfl

theorem mem_expandStep (componentDefinitions : TransformAwareRegistry)
    (expanded : List String) (name y : String) :
    y ∈ expandStep componentDefinitions expanded name ↔
      y ∈ expanded ∨
        ∃ entry rule m, lookupStr componentDefinitions name = some entry ∧
          entry.mdxTransform = some rule ∧
          truthyRenameFlow rule.renameFlow = some m ∧ y ∈ rfTargetNames m := by
  unfold expandStep
  cases hl : lookupStr componentDefinitions name with
  | none => simp
  | some entry =>
    dsimp only
    cases hr : entry.mdxTransform with
    | none => simp [hr]
    | some rule =>
      dsimp only
      rw [mem_addRenameFlowTargets]
      constructor
      · rintro (h | ⟨m, hm, hy⟩)
        · exact Or.inl h
        · exact Or.inr ⟨entry, rule, m, rfl, hr, hm, hy⟩
      · rintro (h | ⟨e2, r2, m, he2, hr2, hm, hy⟩)
        · exact Or.inl h
        · cases he2
          rw [hr] at hr2
          cases hr2
          exact Or.inr ⟨m, hm, hy⟩

theorem mem_foldl_expandStep (componentDefinitions : TransformAwareRegistry)
    (xs : List String) :
    ∀ (init : List String) (y : String),
      y ∈ xs.foldl (expandStep componentDefinitions) init ↔
        y ∈ init ∨
          ∃ n ∈ xs, ∃ entry rule m,
            lookupStr componentDefinitions n = some entry ∧
            entry.mdxTransform = some rule ∧
            truthyRenameFlow rule.renameFlow = some m ∧
            y ∈ rfTargetNames m := by
  induction xs with
  | nil => simp
  | cons x rest ih =>
    intro init y
    simp only [List.foldl_cons, ih, mem_expandStep, List.mem_cons]
    constructor
    · rintro ((h | ⟨e, r, m, he, hr, hm, hy⟩) | ⟨n, hn, rest2⟩)
      · exact Or.inl h
      · exact Or.inr ⟨x, Or.inl rfl, e, r, m, he, hr, hm, hy⟩
      · exact Or.inr ⟨n, Or.inr hn, rest2⟩
    · rintro (h | ⟨n, (rfl | hn), rest2⟩)
      · exact Or.inl (Or.inl h)
      · exact Or.inl (Or.inr rest2)
      · exact Or.inr ⟨n, hn, rest2⟩

/-- Claim C9 counterexample: the registry `defsC9` declares a rename map
with target `X` (so `X` is reachable through a declared rename map), but
expanding the empty input set misses it — the utility only consults
registry entries whose name is in the input set, so the claimed
"input names plus every reachable target" equation fails. -/
theorem c9_counterexample :
    expandHydratedComponentNames [] defsC9 = [] ∧
    "X" ∈ specReachableTargets defsC9 ∧
    "X" ∉ expandHydratedComponentNames [] defsC9 := by
  refine ⟨rfl, ?_, ?_⟩
  · simp [specReachableTargets, defsC9, truthyRenameFlow, mkTarget]
  · intro h
    simp [expandHydratedComponentNames] at h

/-- Claim C9 (amended): the utility returns the input names plus exactly
the rename targets of registry entries whose name occurs in the input
set (one level, not all rename maps declared anywhere in the
registry). -/
theorem c9_amended (componentNames : List String)
    (componentDefinitions : TransformAwareRegistry) (y : String) :
    y ∈ expandHydratedComponentNames componentNames componentDefinitions ↔
      y ∈ componentNames ∨
        ∃ n ∈ componentNames, ∃ entry rule m,
          lookupStr componentDefinitions n = some entry ∧
          entry.mdxTransform = some rule ∧
          truthyRenameFlow rule.renameFlow = some m ∧
          y ∈ rfTargetNames m := by
  rw [expandHydratedComponentNames_eq_foldl,
    mem_foldl_expandStep, mem_foldl_setAdd]
  simp

/-! ### Claim C8: serialization failures abort the transformation -/

theorem toMdxAttribute_of_estree_error (propName : String)
    {v : MdxPropValue} {m : String} (h : valueToEstree v = .error m) :
    toMdxAttribute propName v = .error (serializationFailureMessage propName m) := by
  have hc : createAttributeValueExpression v = .error m := by
    unfold createAttributeValueExpression
    rw [h]
  cases v
  case pvBool b =>
    cases b
    · simp [toMdxAttribute, hc]
    · simp [valueToEstree] at h
  all_goals simp [toMdxAttribute, hc]

/-- Claim C8: a value the attribute value encoder cannot represent makes
the encoder raise a serialization error, which `toMdxAttribute` catches
and re-raises wrapped with the failing attribute's name; the wrapped
error propagates through the rename applier and both traversals to the
external caller with no local recovery, aborting the whole-tree
transformation. -/
theorem c8_serialization_failure (propName : String) (v : MdxPropValue)
    (m : String) (h : valueToEstree v = .error m)
    (a a2 : List MdxJsxAttribute) (ch2 rest : List MdxNode) :
    toMdxAttribute propName v =
      .error (serializationFailureMessage propName m) ∧
    runScoped (regC8 propName v) (treeC8 a a2 ch2 rest) =
      .error (serializationFailureMessage propName m) ∧
    remarkScopedMdx (regC8 propName v) (treeC8 a a2 ch2 rest) =
      .error (serializationFailureMessage propName m) := by
  have ht := toMdxAttribute_of_estree_error propName h
  have hfr : applyFlowRename ⟨some "bad", a2, ch2⟩
      ⟨⟨"Target", some [(propName, some v)]⟩, none⟩ =
      .error (serializationFailureMessage propName m) := by
    unfold applyFlowRename
    simp [buildAttributes, buildAttributesList, ht]
  have hin : innerL ["Scope"] [("bad", ⟨⟨"Target", some [(propName, some v)]⟩, none⟩)]
      0 (.flow (some "bad") a2 ch2 :: rest) =
      .error (serializationFailureMessage propName m) := by
    simp [innerL, lookupStr, hfr]
  have hinB : innerB ["Scope"]
      [("bad", ⟨⟨"Target", some [(propName, some v)]⟩, none⟩)]
      0 (.flow (some "bad") a2 ch2 :: rest) =
      .error (serializationFailureMessage propName m) :=
    (innerB_error_iff _ _ _ _ _).mpr hin
  have hrun : runScoped (regC8 propName v) (treeC8 a a2 ch2 rest) =
      .error (serializationFailureMessage propName m) := by
    simp [runScoped, outerL, regC8, treeC8, scopeComponentNames,
      activeScopeNames, activeRenameFlow, lookupStr, truthyRenameFlow,
      hasOwnRenameFlow, hinB]
  refine ⟨ht, hrun, ?_⟩
  simp [remarkScopedMdx, hrun]

theorem c8_serialization_failure_witness :
    valueToEstree (.pvUnserializable "liveHandle") =
      .error (unsupportedValueMessage "liveHandle") ∧
    toMdxAttribute "payload" (.pvUnserializable "liveHandle") =
      .error (serializationFailureMessage "payload"
        (unsupportedValueMessage "liveHandle")) ∧
    remarkScopedMdx (regC8 "payload" (.pvUnserializable "liveHandle"))
        (treeC8 [] [] [] []) =
      .error (serializationFailureMessage "payload"
        (unsupportedValueMessage "liveHandle")) := by
  have h : valueToEstree (.pvUnserializable "liveHandle") =
      .error (unsupportedValueMessage "liveHandle") := by
    simp [valueToEstree]
  obtain ⟨h1, _, h3⟩ :=
    c8_serialization_failure "payload" (.pvUnserializable "liveHandle") _
      h [] [] [] []
  exact ⟨h, h1, h3⟩

/-! ### Position lemmas -/

theorem nodeAtL_nil_path (cs : List MdxNode) (i0 : Nat) :
    nodeAtL cs i0 [] = none := by
  cases cs <;> simp [nodeAtL]

theorem nodeAtL_nil (i0 : Nat) (p : List Nat) : nodeAtL [] i0 p = none := by
  cases p <;> simp [nodeAtL]

theorem nodeAtL_cons_single (c : MdxNode) (rest : List MdxNode) (i0 i : Nat) :
    nodeAtL (c :: rest) i0 [i] =
      if i = i0 then some c else nodeAtL rest (i0+1) [i] := by
  simp [nodeAtL]

theorem nodeAtL_cons_deep (c : MdxNode) (rest : List MdxNode)
    (i0 i j : Nat) (p : List Nat) :
    nodeAtL (c :: rest) i0 (i :: j :: p) =
      if i = i0 then nodeAtL c.childrenOf 0 (j :: p)
      else nodeAtL rest (i0+1) (i :: j :: p) := by
  simp [nodeAtL]

/-- Whether any node of the forest bears the given tag name. -/
def containsNameL (x : String) : List MdxNode → Bool
  | [] => false
  | .flow n _ cs :: rest =>
    n == some x || containsNameL x cs || containsNameL x rest
  | .other _ cs :: rest => containsNameL x cs || containsNameL x rest
termination_by cs => countList cs
decreasing_by
  all_goals simp [countList, countNode]
  all_goals omega

theorem nodeAtL_not_contains (x : String) :
    ∀ (cs : List MdxNode) (i0 : Nat) (p : List Nat) (u : MdxNode),
      nodeAtL cs i0 p = some u → containsNameL x cs = false →
      u.nodeName ≠ some x := by
  intro cs i0 p
  induction cs, i0, p using nodeAtL.induct with
  | case1 cs i0 =>
    intro u hu
    rw [nodeAtL_nil_path] at hu
    exact absurd hu (by simp)
  | case2 i0 hd tl =>
    intro u hu
    rw [nodeAtL_nil] at hu
    exact absurd hu (by simp)
  | case3 c rest i =>
    intro u hu hc
    rw [nodeAtL_cons_single, if_pos rfl] at hu
    cases hu
    cases c with
    | flow n a cs2 =>
      simp [containsNameL] at hc
      simp [MdxNode.nodeName]
      intro hn
      rw [hn] at hc
      simp at hc
    | other k cs2 => simp [MdxNode.nodeName]
  | case4 c rest i0 i hne ih =>
    intro u hu hc
    rw [nodeAtL_cons_single, if_neg hne] at hu
    apply ih u hu
    cases c <;> simp [containsNameL] at hc <;> simp [hc]
  | case5 c rest i j p ih =>
    intro u hu hc
    rw [nodeAtL_cons_deep, if_pos rfl] at hu
    apply ih u hu
    cases c <;> simp [containsNameL, MdxNode.childrenOf] at hc ⊢ <;>
      simp [hc]
  | case6 c rest i0 i j p hne ih =>
    intro u hu hc
    rw [nodeAtL_cons_deep, if_neg hne] at hu
    apply ih u hu
    cases c <;> simp [containsNameL] at hc <;> simp [hc]

/-- A forest with no `x`-named node has every position outside every
`x`-rooted subtree. -/
theorem noScopeAbove_of_not_contains (x : String) (cs : List MdxNode)
    (i0 : Nat) (p : List Nat) (h : containsNameL x cs = false) :
    noScopeAbove x cs i0 p := by
  intro q _ hnamed
  obtain ⟨u, hu, hn⟩ := hnamed
  exact nodeAtL_not_contains x cs i0 q u hu h hn

/-! ### A structured induction principle for the inner traversal

`innerL_rec` packages the successful runs of `innerL` into six readable
cases (empty list, nested-scope boundary, rename hit, named flow element
with no rename rule, unnamed flow element, other node), so that the
invariants below need not repeat the error-branch bookkeeping. -/

theorem innerL_rec (sn : List String) (rf : List (String × MdxRenameTarget))
    (P : Nat → List MdxNode → List MdxNode → List (List Nat) → Prop)
    (hnil : ∀ i, P i [] [] [])
    (hbound : ∀ i k a ch rest rest2 lr, k ∈ sn →
      innerL sn rf (i+1) rest = .ok (rest2, lr) → P (i+1) rest rest2 lr →
      P i (.flow (some k) a ch :: rest) (.flow (some k) a ch :: rest2) lr)
    (hren : ∀ i k a ch rest target fd ch2 lc rest2 lr, k ∉ sn →
      lookupStr rf k = some target →
      applyFlowRename ⟨some k, a, ch⟩ target = .ok fd →
      innerL sn rf 0 (if isClearPolicy target then [] else ch) = .ok (ch2, lc) →
      P 0 (if isClearPolicy target then [] else ch) ch2 lc →
      innerL sn rf (i+1) rest = .ok (rest2, lr) → P (i+1) rest rest2 lr →
      P i (.flow (some k) a ch :: rest)
        (.flow fd.name fd.attributes ch2 :: rest2)
        (([i] :: lc.map (fun p => i :: p)) ++ lr))
    (hmiss : ∀ i k a ch rest ch2 lc rest2 lr, k ∉ sn → lookupStr rf k = none →
      innerL sn rf 0 ch = .ok (ch2, lc) → P 0 ch ch2 lc →
      innerL sn rf (i+1) rest = .ok (rest2, lr) → P (i+1) rest rest2 lr →
      P i (.flow (some k) a ch :: rest) (.flow (some k) a ch2 :: rest2)
        (lc.map (fun p => i :: p) ++ lr))
    (hfrag : ∀ i a ch rest ch2 lc rest2 lr,
      innerL sn rf 0 ch = .ok (ch2, lc) → P 0 ch ch2 lc →
      innerL sn rf (i+1) rest = .ok (rest2, lr) → P (i+1) rest rest2 lr →
      P i (.flow none a ch :: rest) (.flow none a ch2 :: rest2)
        (lc.map (fun p => i :: p) ++ lr))
    (hother : ∀ i kd ch rest ch2 lc rest2 lr,
      innerL sn rf 0 ch = .ok (ch2, lc) → P 0 ch ch2 lc →
      innerL sn rf (i+1) rest = .ok (rest2, lr) → P (i+1) rest rest2 lr →
      P i (.other kd ch :: rest) (.other kd ch2 :: rest2)
        (lc.map (fun p => i :: p) ++ lr)) :
    ∀ i cs cs2 l, innerL sn rf i cs = .ok (cs2, l) → P i cs cs2 l := by
  intro i cs
  induction i, cs using innerL.induct sn rf with
  | case1 x =>
    intro cs2 l h
    simp only [innerL, Except.ok.injEq, Prod.mk.injEq] at h
    obtain ⟨rfl, rfl⟩ := h
    exact hnil x
  | case2 i k a ch rest hmem e herr ih =>
    intro cs2 l h
    simp [innerL, if_pos hmem, herr] at h
  | case3 i k a ch rest hmem rest2 lr hrest ih =>
    intro cs2 l h
    simp only [innerL, if_pos hmem, hrest, Except.ok.injEq,
      Prod.mk.injEq] at h
    obtain ⟨rfl, rfl⟩ := h
    exact hbound i k a ch rest rest2 lr hmem hrest (ih rest2 lr hrest)
  | case4 i k a ch rest hnmem target hlook e happ =>
    intro cs2 l h
    simp [innerL, if_neg hnmem, hlook, happ] at h
  | case5 i k a ch rest hnmem target hlook fd happ e hch ihch =>
    intro cs2 l h
    rw [dite_eq_ite] at hch
    simp [innerL, if_neg hnmem, hlook, happ, hch] at h
  | case6 i k a ch rest hnmem target hlook fd happ ch2 lc hch e hrest ihch ihrest =>
    intro cs2 l h
    rw [dite_eq_ite] at hch
    simp [innerL, if_neg hnmem, hlook, happ, hch, hrest] at h
  | case7 i k a ch rest hnmem target hlook fd happ ch2 lc hch rest2 lr hrest ihch ihrest =>
    intro cs2 l h
    rw [dite_eq_ite] at hch ihch
    simp only [innerL, if_neg hnmem, hlook, happ, hch, hrest,
      Except.ok.injEq, Prod.mk.injEq] at h
    obtain ⟨rfl, rfl⟩ := h
    exact hren i k a ch rest target fd ch2 lc rest2 lr hnmem hlook happ
      hch (ihch ch2 lc hch) hrest (ihrest rest2 lr hrest)
  | case8 i k a ch rest hnmem hlook e hch ihch =>
    intro cs2 l h
    simp [innerL, if_neg hnmem, hlook, hch] at h
  | case9 i k a ch rest hnmem hlook ch2 lc hch e hrest ihch ihrest =>
    intro cs2 l h
    simp [innerL, if_neg hnmem, hlook, hch, hrest] at h
  | case10 i k a ch rest hnmem hlook ch2 lc hch rest2 lr hrest ihch ihrest =>
    intro cs2 l h
    simp only [innerL, if_neg hnmem, hlook, hch, hrest, Except.ok.injEq,
      Prod.mk.injEq] at h
    obtain ⟨rfl, rfl⟩ := h
    exact hmiss i k a ch rest ch2 lc rest2 lr hnmem hlook hch
      (ihch ch2 lc hch) hrest (ihrest rest2 lr hrest)
  | case11 i a ch rest e hch ihch =>
    intro cs2 l h
    simp [innerL, hch] at h
  | case12 i a ch rest ch2 lc hch e hrest ihch ihrest =>
    intro cs2 l h
    simp [innerL, hch, hrest] at h
  | case13 i a ch rest ch2 lc hch rest2 lr hrest ihch ihrest =>
    intro cs2 l h
    simp only [innerL, hch, hrest, Except.ok.injEq, Prod.mk.injEq] at h
    obtain ⟨rfl, rfl⟩ := h
    exact hfrag i a ch rest ch2 lc rest2 lr hch (ihch ch2 lc hch) hrest
      (ihrest rest2 lr hrest)
  | case14 i kd ch rest e hch ihch =>
    intro cs2 l h
    simp [innerL, hch] at h
  | case15 i kd ch rest ch2 lc hch e hrest ihch ihrest =>
    intro cs2 l h
    simp [innerL, hch, hrest] at h
  | case16 i kd ch rest ch2 lc hch rest2 lr hrest ihch ihrest =>
    intro cs2 l h
    simp only [innerL, hch, hrest, Except.ok.injEq, Prod.mk.injEq] at h
    obtain ⟨rfl, rfl⟩ := h
    exact hother i kd ch rest ch2 lc rest2 lr hch (ihch ch2 lc hch) hrest
      (ihrest rest2 lr hrest)

/-! ### A structured induction principle for the outer traversal

`outerL_rec` packages the successful runs of `outerL` into six readable
cases: empty list; matched scope root with truthy rename map (inner walk
then outer descent); matched scope root whose visitor early-returns
(declared-but-undefined `renameFlow`); unmatched named flow element;
unnamed flow element; other node. -/

theorem outerL_rec (registry : ScopedMdxTransformRegistry)
    (sn active : List String)
    (P : Nat → List MdxNode → List MdxNode →
      List (List Nat) → List (List Nat) → Prop)
    (pnil : ∀ i, P i [] [] [] [])
    (pactive : ∀ i k a ch rest rfn ch1 il ch2 rl2 sl2 rest2 rlr slr,
      k ∈ active → activeRenameFlow registry k = some rfn →
      innerL sn rfn 0 ch = .ok (ch1, il) →
      outerL registry sn active 0 ch1 = .ok (ch2, rl2, sl2) →
      P 0 ch1 ch2 rl2 sl2 →
      outerL registry sn active (i+1) rest = .ok (rest2, rlr, slr) →
      P (i+1) rest rest2 rlr slr →
      P i (.flow (some k) a ch :: rest) (.flow (some k) a ch2 :: rest2)
        ((il.map (fun p => i :: p) ++ rl2.map (fun p => i :: p)) ++ rlr)
        (([i] :: sl2.map (fun p => i :: p)) ++ slr))
    (pundef : ∀ i k a ch rest ch2 rl2 sl2 rest2 rlr slr,
      k ∈ active → activeRenameFlow registry k = none →
      outerL registry sn active 0 ch = .ok (ch2, rl2, sl2) →
      P 0 ch ch2 rl2 sl2 →
      outerL registry sn active (i+1) rest = .ok (rest2, rlr, slr) →
      P (i+1) rest rest2 rlr slr →
      P i (.flow (some k) a ch :: rest) (.flow (some k) a ch2 :: rest2)
        (rl2.map (fun p => i :: p) ++ rlr)
        (([i] :: sl2.map (fun p => i :: p)) ++ slr))
    (pinactive : ∀ i k a ch rest ch2 rl2 sl2 rest2 rlr slr,
      k ∉ active →
      outerL registry sn active 0 ch = .ok (ch2, rl2, sl2) →
      P 0 ch ch2 rl2 sl2 →
      outerL registry sn active (i+1) rest = .ok (rest2, rlr, slr) →
      P (i+1) rest rest2 rlr slr →
      P i (.flow (some k) a ch :: rest) (.flow (some k) a ch2 :: rest2)
        (rl2.map (fun p => i :: p) ++ rlr)
        (sl2.map (fun p => i :: p) ++ slr))
    (pfrag : ∀ i a ch rest ch2 rl2 sl2 rest2 rlr slr,
      outerL registry sn active 0 ch = .ok (ch2, rl2, sl2) →
      P 0 ch ch2 rl2 sl2 →
      outerL registry sn active (i+1) rest = .ok (rest2, rlr, slr) →
      P (i+1) rest rest2 rlr slr →
      P i (.flow none a ch :: rest) (.flow none a ch2 :: rest2)
        (rl2.map (fun p => i :: p) ++ rlr)
        (sl2.map (fun p => i :: p) ++ slr))
    (pother : ∀ i kd ch rest ch2 rl2 sl2 rest2 rlr slr,
      outerL registry sn active 0 ch = .ok (ch2, rl2, sl2) →
      P 0 ch ch2 rl2 sl2 →
      outerL registry sn active (i+1) rest = .ok (rest2, rlr, slr) →
      P (i+1) rest rest2 rlr slr →
      P i (.other kd ch :: rest) (.other kd ch2 :: rest2)
        (rl2.map (fun p => i :: p) ++ rlr)
        (sl2.map (fun p => i :: p) ++ slr)) :
    ∀ i cs cs2 rl sl, outerL registry sn active i cs = .ok (cs2, rl, sl) →
      P i cs cs2 rl sl := by
  intro i cs
  induction i, cs using outerL.induct registry sn active with
  | case1 x =>
    intro cs2 rl sl h
    simp only [outerL, Except.ok.injEq, Prod.mk.injEq] at h
    obtain ⟨rfl, rfl, rfl⟩ := h
    exact pnil x
  | case2 i k a ch rest hmem rfn hrfn e hin =>
    intro cs2 rl sl h
    simp [outerL, if_pos hmem, hrfn, hin] at h
  | case3 i k a ch rest hmem rfn hrfn ch1 il hprop hin e hch ihch =>
    intro cs2 rl sl h
    simp [outerL, if_pos hmem, hrfn, hin, hch] at h
  | case4 i k a ch rest hmem rfn hrfn ch1 il hprop hin ch2 rl2 sl2 hch e hrest ihch ihrest =>
    intro cs2 rl sl h
    simp [outerL, if_pos hmem, hrfn, hin, hch, hrest] at h
  | case5 i k a ch rest hmem rfn hrfn ch1 il hprop hin ch2 rl2 sl2 hch rest2 rlr slr hrest ihch ihrest =>
    intro cs2 rl sl h
    simp only [outerL, if_pos hmem, hrfn, hin, hch, hrest, Except.ok.injEq,
      Prod.mk.injEq] at h
    obtain ⟨rfl, rfl, rfl⟩ := h
    exact pactive i k a ch rest rfn ch1 il ch2 rl2 sl2 rest2 rlr slr hmem
      hrfn ((innerB_ok_iff sn rfn 0 ch (ch1, il) hprop).mp hin) hch
      (ihch ch2 rl2 sl2 hch) hrest (ihrest rest2 rlr slr hrest)
  | case6 i k a ch rest hmem hrfn e hch ihch =>
    intro cs2 rl sl h
    simp [outerL, if_pos hmem, hrfn, hch] at h
  | case7 i k a ch rest hmem hrfn ch2 rl2 sl2 hch e hrest ihch ihrest =>
    intro cs2 rl sl h
    simp [outerL, if_pos hmem, hrfn, hch, hrest] at h
  | case8 i k a ch rest hmem hrfn ch2 rl2 sl2 hch rest2 rlr slr hrest ihch ihrest =>
    intro cs2 rl sl h
    simp only [outerL, if_pos hmem, hrfn, hch, hrest, Except.ok.injEq,
      Prod.mk.injEq] at h
    obtain ⟨rfl, rfl, rfl⟩ := h
    exact pundef i k a ch rest ch2 rl2 sl2 rest2 rlr slr hmem hrfn hch
      (ihch ch2 rl2 sl2 hch) hrest (ihrest rest2 rlr slr hrest)
  | case9 i k a ch rest hnmem e hch ihch =>
    intro cs2 rl sl h
    simp [outerL, if_neg hnmem, hch] at h
  | case10 i k a ch rest hnmem ch2 rl2 sl2 hch e hrest ihch ihrest =>
    intro cs2 rl sl h
    simp [outerL, if_neg hnmem, hch, hrest] at h
  | case11 i k a ch rest hnmem ch2 rl2 sl2 hch rest2 rlr slr hrest ihch ihrest =>
    intro cs2 rl sl h
    simp only [outerL, if_neg hnmem, hch, hrest, Except.ok.injEq,
      Prod.mk.injEq] at h
    obtain ⟨rfl, rfl, rfl⟩ := h
    exact pinactive i k a ch rest ch2 rl2 sl2 rest2 rlr slr hnmem hch
      (ihch ch2 rl2 sl2 hch) hrest (ihrest rest2 rlr slr hrest)
  | case12 i a ch rest e hch ihch =>
    intro cs2 rl sl h
    simp [outerL, hch] at h
  | case13 i a ch rest ch2 rl2 sl2 hch e hrest ihch ihrest =>
    intro cs2 rl sl h
    simp [outerL, hch, hrest] at h
  | case14 i a ch rest ch2 rl2 sl2 hch rest2 rlr slr hrest ihch ihrest =>
    intro cs2 rl sl h
    simp only [outerL, hch, hrest, Except.ok.injEq, Prod.mk.injEq] at h
    obtain ⟨rfl, rfl, rfl⟩ := h
    exact pfrag i a ch rest ch2 rl2 sl2 rest2 rlr slr hch
      (ihch ch2 rl2 sl2 hch) hrest (ihrest rest2 rlr slr hrest)
  | case15 i kd ch rest e hch ihch =>
    intro cs2 rl sl h
    simp [outerL, hch] at h
  | case16 i kd ch rest ch2 rl2 sl2 hch e hrest ihch ihrest =>
    intro cs2 rl sl h
    simp [outerL, hch, hrest] at h
  | case17 i kd ch rest ch2 rl2 sl2 hch rest2 rlr slr hrest ihch ihrest =>
    intro cs2 rl sl h
    simp only [outerL, hch, hrest, Except.ok.injEq, Prod.mk.injEq] at h
    obtain ⟨rfl, rfl, rfl⟩ := h
    exact pother i kd ch rest ch2 rl2 sl2 rest2 rlr slr hch
      (ihch ch2 rl2 sl2 hch) hrest (ihrest rest2 rlr slr hrest)

/-! ### Shape of the inner rename log -/

/-- Every path in an inner-walk rename log starts with a child index at
or beyond the walk's starting index. -/
theorem innerL_log_head (sn : List String)
    (rf : List (String × MdxRenameTarget)) :
    ∀ i cs cs2 l, innerL sn rf i cs = .ok (cs2, l) →
      ∀ q ∈ l, ∃ j p, q = j :: p ∧ i ≤ j := by
  apply innerL_rec sn rf
    (fun i _ _ l => ∀ q ∈ l, ∃ j p, q = j :: p ∧ i ≤ j)
  · simp
  · intro i k a ch rest rest2 lr _ _ ih q hq
    obtain ⟨j, p, rfl, hij⟩ := ih q hq
    exact ⟨j, p, rfl, by omega⟩
  · intro i k a ch rest target fd ch2 lc rest2 lr _ _ _ _ _ _ ihr q hq
    simp only [List.cons_append, List.mem_cons, List.mem_append,
      List.mem_map] at hq
    rcases hq with rfl | ⟨p, _, rfl⟩ | hq
    · exact ⟨i, [], rfl, le_refl i⟩
    · exact ⟨i, p, rfl, le_refl i⟩
    · obtain ⟨j, p, rfl, hij⟩ := ihr q hq
      exact ⟨j, p, rfl, by omega⟩
  · intro i k a ch rest ch2 lc rest2 lr _ _ _ _ _ ihr q hq
    simp only [List.mem_append, List.mem_map] at hq
    rcases hq with ⟨p, _, rfl⟩ | hq
    · exact ⟨i, p, rfl, le_refl i⟩
    · obtain ⟨j, p, rfl, hij⟩ := ihr q hq
      exact ⟨j, p, rfl, by omega⟩
  · intro i a ch rest ch2 lc rest2 lr _ _ _ ihr q hq
    simp only [List.mem_append, List.mem_map] at hq
    rcases hq with ⟨p, _, rfl⟩ | hq
    · exact ⟨i, p, rfl, le_refl i⟩
    · obtain ⟨j, p, rfl, hij⟩ := ihr q hq
      exact ⟨j, p, rfl, by omega⟩
  · intro i kd ch rest ch2 lc rest2 lr _ _ _ ihr q hq
    simp only [List.mem_append, List.mem_map] at hq
    rcases hq with ⟨p, _, rfl⟩ | hq
    · exact ⟨i, p, rfl, le_refl i⟩
    · obtain ⟨j, p, rfl, hij⟩ := ihr q hq
      exact ⟨j, p, rfl, by omega⟩

/-- Claim C5 (amended): one invocation of the scope boundary walker (the
inner traversal) mutates each node at most once — its rename log has no
duplicate positions.  (Across the whole-tree pass this fails: when a
rename target's name is an active scope name, the renamed node is
re-matched as a scope root and nodes in its subtree can be renamed
again, as the counterexample shows.) -/
theorem c5_amended (sn : List String)
    (rf : List (String × MdxRenameTarget)) :
    ∀ i cs cs2 l, innerL sn rf i cs = .ok (cs2, l) → l.Nodup := by
  apply innerL_rec sn rf (fun _ _ _ l => l.Nodup)
  · simp
  · intro _ _ _ _ _ _ _ _ _ ih
    exact ih
  · intro i k a ch rest target fd ch2 lc rest2 lr _ _ _ hch ihc hrest ihr
    have hlc := innerL_log_head sn rf 0 _ ch2 lc hch
    have hlr := innerL_log_head sn rf (i+1) rest rest2 lr hrest
    simp only [List.cons_append, List.nodup_cons, List.mem_append,
      List.mem_map, not_or]
    refine ⟨⟨?_, ?_⟩, ?_⟩
    · rintro ⟨p, hp, hpe⟩
      obtain ⟨j, p2, rfl, _⟩ := hlc p hp
      simp at hpe
    · intro hmem
      obtain ⟨j, p, heq, hij⟩ := hlr [i] hmem
      cases heq
      omega
    · rw [List.nodup_append]
      refine ⟨ihc.map ?_, ihr, ?_⟩
      · intro p1 p2 hpe
        simpa using hpe
      · intro q hq1 hq2
        simp only [List.mem_map] at hq1
        obtain ⟨p, _, rfl⟩ := hq1
        obtain ⟨j, p2, heq, hij⟩ := hlr _ hq2
        cases heq
        omega
  · intro i k a ch rest ch2 lc rest2 lr _ _ hch ihc hrest ihr
    have hlr := innerL_log_head sn rf (i+1) rest rest2 lr hrest
    rw [List.nodup_append]
    refine ⟨ihc.map ?_, ihr, ?_⟩
    · intro p1 p2 hpe
      simpa using hpe
    · intro q hq1 hq2
      simp only [List.mem_map] at hq1
      obtain ⟨p, _, rfl⟩ := hq1
      obtain ⟨j, p2, heq, hij⟩ := hlr _ hq2
      cases heq
      omega
  · intro i a ch rest ch2 lc rest2 lr hch ihc hrest ihr
    have hlr := innerL_log_head sn rf (i+1) rest rest2 lr hrest
    rw [List.nodup_append]
    refine ⟨ihc.map ?_, ihr, ?_⟩
    · intro p1 p2 hpe
      simpa using hpe
    · intro q hq1 hq2
      simp only [List.mem_map] at hq1
      obtain ⟨p, _, rfl⟩ := hq1
      obtain ⟨j, p2, heq, hij⟩ := hlr _ hq2
      cases heq
      omega
  · intro i kd ch rest ch2 lc rest2 lr hch ihc hrest ihr
    have hlr := innerL_log_head sn rf (i+1) rest rest2 lr hrest
    rw [List.nodup_append]
    refine ⟨ihc.map ?_, ihr, ?_⟩
    · intro p1 p2 hpe
      simpa using hpe
    · intro q hq1 hq2
      simp only [List.mem_map] at hq1
      obtain ⟨p, _, rfl⟩ := hq1
      obtain ⟨j, p2, heq, hij⟩ := hlr _ hq2
      cases heq
      omega

/-! ### Path and naming decomposition lemmas -/

theorem underPath_cons_cons (j i : Nat) (q p : List Nat) :
    underPath (j :: q) (i :: p) = ((j == i) && underPath q p) := rfl

theorem underPath_any_nil (p : List Nat) : underPath p [] = true := by
  cases p <;> rfl

theorem underPath_head_ne {j i : Nat} (q p : List Nat) (h : j ≠ i) :
    underPath (j :: q) (i :: p) = false := by
  have hb : (j == i) = false := by simpa using h
  simp [underPath_cons_cons, hb]

theorem underPath_single_deep (i j : Nat) (p : List Nat) :
    underPath [i] (i :: j :: p) = false := by
  simp [underPath]

theorem not_namedAt_nil_pos (cs : List MdxNode) (i0 : Nat) (b : String) :
    ¬ namedAt cs i0 [] b := by
  rintro ⟨u, hu, _⟩
  rw [nodeAtL_nil_path] at hu
  exact absurd hu (by simp)

theorem not_namedAt_nilL (i0 : Nat) (p : List Nat) (b : String) :
    ¬ namedAt [] i0 p b := by
  rintro ⟨u, hu, _⟩
  rw [nodeAtL_nil] at hu
  exact absurd hu (by simp)

theorem namedAt_cons_self (c : MdxNode) (rest : List MdxNode) (i0 : Nat)
    (b : String) :
    namedAt (c :: rest) i0 [i0] b ↔ c.nodeName = some b := by
  unfold namedAt
  rw [nodeAtL_cons_single, if_pos rfl]
  constructor
  · rintro ⟨u, hu, hn⟩
    cases hu
    exact hn
  · intro hn
    exact ⟨c, rfl, hn⟩

theorem namedAt_cons_deep (c : MdxNode) (rest : List MdxNode)
    (i0 j : Nat) (p : List Nat) (b : String) :
    namedAt (c :: rest) i0 (i0 :: j :: p) b ↔
      namedAt c.childrenOf 0 (j :: p) b := by
  unfold namedAt
  rw [nodeAtL_cons_deep, if_pos rfl]

theorem namedAt_cons_ne (c : MdxNode) (rest : List MdxNode)
    (i0 i : Nat) (p : List Nat) (b : String) (h : i ≠ i0) :
    namedAt (c :: rest) i0 (i :: p) b ↔ namedAt rest (i0+1) (i :: p) b := by
  unfold namedAt
  cases p with
  | nil => rw [nodeAtL_cons_single, if_neg h]
  | cons j p2 => rw [nodeAtL_cons_deep, if_neg h]

/-! ### Claim C2: nested boundaries are never renamed into -/

/-- General form: during one inner walk with boundary set `sn`, no
rename position lies at or below any position whose input node bears a
name in `sn`. -/
theorem innerL_boundary_frame (sn : List String)
    (rf : List (String × MdxRenameTarget)) :
    ∀ i cs cs2 l, innerL sn rf i cs = .ok (cs2, l) →
      ∀ p b, namedAt cs i p b → b ∈ sn →
        ∀ q ∈ l, underPath q p = false := by
  apply innerL_rec sn rf
    (fun i cs _ l => ∀ p b, namedAt cs i p b → b ∈ sn →
      ∀ q ∈ l, underPath q p = false)
  · intro i p b hp _ q hq
    exact absurd hp (not_namedAt_nilL i p b)
  · intro i k a ch rest rest2 lr hk hrest ih p b hp hb q hq
    obtain ⟨j, q2, rfl, hij⟩ := innerL_log_head sn rf (i+1) rest rest2 lr hrest q hq
    rcases p with _ | ⟨i2, p2⟩
    · exact absurd hp (not_namedAt_nil_pos _ _ _)
    by_cases hii : i2 = i
    · subst hii
      exact underPath_head_ne q2 p2 (by omega)
    · exact ih (i2 :: p2) b ((namedAt_cons_ne _ _ _ _ _ _ hii).mp hp) hb
        (j :: q2) hq
  · intro i k a ch rest target fd ch2 lc rest2 lr hk hlook happ hch ihc
      hrest ihr p b hp hb q hq
    have hlr := innerL_log_head sn rf (i+1) rest rest2 lr hrest
    rcases p with _ | ⟨i2, p2⟩
    · exact absurd hp (not_namedAt_nil_pos _ _ _)
    by_cases hii : i2 = i
    · subst hii
      rcases p2 with _ | ⟨j2, p3⟩
      · have hname := (namedAt_cons_self _ _ _ _).mp hp
        simp only [MdxNode.nodeName, Option.some.injEq] at hname
        rw [← hname] at hb
        exact absurd hb hk
      · have hpch : namedAt ch 0 (j2 :: p3) b := by
          have := (namedAt_cons_deep (.flow (some k) a ch) rest i2 j2 p3 b).mp hp
          simpa [MdxNode.childrenOf] using this
        simp only [List.cons_append, List.mem_cons, List.mem_append,
          List.mem_map] at hq
        rcases hq with rfl | ⟨q2, hq2, rfl⟩ | hq
        · exact underPath_single_deep i2 j2 p3
        · rw [underPath_cons_cons]
          simp only [beq_self_eq_true, Bool.true_and]
          by_cases hclear : isClearPolicy target = true
          · rw [if_pos hclear] at hch
            have : lc = [] := by
              simp only [innerL, Except.ok.injEq, Prod.mk.injEq] at hch
              exact hch.2.symm
            rw [this] at hq2
            exact absurd hq2 (by simp)
          · rw [if_neg hclear] at hch ihc
            exact ihc (j2 :: p3) b hpch hb q2 hq2
        · obtain ⟨j, q2, rfl, hij⟩ := hlr q hq
          exact underPath_head_ne q2 _ (by omega)
    · have hprest := (namedAt_cons_ne _ _ _ _ _ _ hii).mp hp
      simp only [List.cons_append, List.mem_cons, List.mem_append,
        List.mem_map] at hq
      rcases hq with rfl | ⟨q2, hq2, rfl⟩ | hq
      · exact underPath_head_ne [] p2 (fun he => hii he.symm)
      · exact underPath_head_ne q2 p2 (fun he => hii he.symm)
      · exact ihr (i2 :: p2) b hprest hb q hq
  · intro i k a ch rest ch2 lc rest2 lr hk hlook hch ihc hrest ihr
      p b hp hb q hq
    have hlr := innerL_log_head sn rf (i+1) rest rest2 lr hrest
    rcases p with _ | ⟨i2, p2⟩
    · exact absurd hp (not_namedAt_nil_pos _ _ _)
    by_cases hii : i2 = i
    · subst hii
      rcases p2 with _ | ⟨j2, p3⟩
      · have hname := (namedAt_cons_self _ _ _ _).mp hp
        simp only [MdxNode.nodeName, Option.some.injEq] at hname
        rw [← hname] at hb
        exact absurd hb hk
      · have hpch : namedAt ch 0 (j2 :: p3) b := by
          have := (namedAt_cons_deep (.flow (some k) a ch) rest i2 j2 p3 b).mp hp
          simpa [MdxNode.childrenOf] using this
        simp only [List.mem_append, List.mem_map] at hq
        rcases hq with ⟨q2, hq2, rfl⟩ | hq
        · rw [underPath_cons_cons]
          simp only [beq_self_eq_true, Bool.true_and]
          exact ihc (j2 :: p3) b hpch hb q2 hq2
        · obtain ⟨j, q2, rfl, hij⟩ := hlr q hq
          exact underPath_head_ne q2 _ (by omega)
    · have hprest := (namedAt_cons_ne _ _ _ _ _ _ hii).mp hp
      simp only [List.mem_append, List.mem_map] at hq
      rcases hq with ⟨q2, hq2, rfl⟩ | hq
      · exact underPath_head_ne q2 p2 (fun he => hii he.symm)
      · exact ihr (i2 :: p2) b hprest hb q hq
  · intro i a ch rest ch2 lc rest2 lr hch ihc hrest ihr p b hp hb q hq
    have hlr := innerL_log_head sn rf (i+1) rest rest2 lr hrest
    rcases p with _ | ⟨i2, p2⟩
    · exact absurd hp (not_namedAt_nil_pos _ _ _)
    by_cases hii : i2 = i
    · subst hii
      rcases p2 with _ | ⟨j2, p3⟩
      · have hname := (namedAt_cons_self _ _ _ _).mp hp
        simp [MdxNode.nodeName] at hname
      · have hpch : namedAt ch 0 (j2 :: p3) b := by
          have := (namedAt_cons_deep (.flow none a ch) rest i2 j2 p3 b).mp hp
          simpa [MdxNode.childrenOf] using this
        simp only [List.mem_append, List.mem_map] at hq
        rcases hq with ⟨q2, hq2, rfl⟩ | hq
        · rw [underPath_cons_cons]
          simp only [beq_self_eq_true, Bool.true_and]
          exact ihc (j2 :: p3) b hpch hb q2 hq2
        · obtain ⟨j, q2, rfl, hij⟩ := hlr q hq
          exact underPath_head_ne q2 _ (by omega)
    · have hprest := (namedAt_cons_ne _ _ _ _ _ _ hii).mp hp
      simp only [List.mem_append, List.mem_map] at hq
      rcases hq with ⟨q2, hq2, rfl⟩ | hq
      · exact underPath_head_ne q2 p2 (fun he => hii he.symm)
      · exact ihr (i2 :: p2) b hprest hb q hq
  · intro i kd ch rest ch2 lc rest2 lr hch ihc hrest ihr p b hp hb q hq
    have hlr := innerL_log_head sn rf (i+1) rest rest2 lr hrest
    rcases p with _ | ⟨i2, p2⟩
    · exact absurd hp (not_namedAt_nil_pos _ _ _)
    by_cases hii : i2 = i
    · subst hii
      rcases p2 with _ | ⟨j2, p3⟩
      · have hname := (namedAt_cons_self _ _ _ _).mp hp
        simp [MdxNode.nodeName] at hname
      · have hpch : namedAt ch 0 (j2 :: p3) b := by
          have := (namedAt_cons_deep (.other kd ch) rest i2 j2 p3 b).mp hp
          simpa [MdxNode.childrenOf] using this
        simp only [List.mem_append, List.mem_map] at hq
        rcases hq with ⟨q2, hq2, rfl⟩ | hq
        · rw [underPath_cons_cons]
          simp only [beq_self_eq_true, Bool.true_and]
          exact ihc (j2 :: p3) b hpch hb q2 hq2
        · obtain ⟨j, q2, rfl, hij⟩ := hlr q hq
          exact underPath_head_ne q2 _ (by omega)
    · have hprest := (namedAt_cons_ne _ _ _ _ _ _ hii).mp hp
      simp only [List.mem_append, List.mem_map] at hq
      rcases hq with ⟨q2, hq2, rfl⟩ | hq
      · exact underPath_head_ne q2 p2 (fun he => hii he.symm)
      · exact ihr (i2 :: p2) b hprest hb q hq

/-- Claim C2: nested boundary — during the inner walk for a scope root
(the walk over the root's children with the plugin's boundary set, all
registry keys), if some position holds a node whose tag name is any
registry key, then no rename is applied at that position or below it:
every logged rename position avoids that node's whole subtree. -/
theorem c2_nested_boundary (registry : ScopedMdxTransformRegistry)
    (rf : List (String × MdxRenameTarget)) (cs cs2 : List MdxNode)
    (l : List (List Nat))
    (h : innerL (scopeComponentNames registry) rf 0 cs = .ok (cs2, l)) :
    ∀ p b, namedAt cs 0 p b → b ∈ scopeComponentNames registry →
      ∀ q ∈ l, underPath q p = false :=
  innerL_boundary_frame (scopeComponentNames registry) rf 0 cs cs2 l h

/-- Registry for claim C2's witness: scope `S` renames `p`; `Inner` is a
registered scope (a boundary) with an empty rename map. -/
def regC2 : ScopedMdxTransformRegistry :=
  [("S", ⟨.declared [("p", mkTarget "X")]⟩), ("Inner", ⟨.declared []⟩)]

/-- Children of the `S` scope root in claim C2's witness: a `p` to be
renamed, and an `Inner` boundary containing another `p`. -/
def csC2 : List MdxNode :=
  [.flow (some "p") [] [],
   .flow (some "Inner") [] [.flow (some "p") [] []]]

theorem innerL_evalC2 :
    innerL ["S", "Inner"] [("p", mkTarget "X")] 0 csC2 =
      .ok ([.flow (some "X") [] [],
        .flow (some "Inner") [] [.flow (some "p") [] []]], [[0]]) := by
  simp [innerL, csC2, lookupStr, applyFlowRename, buildAttributes,
    isClearPolicy, mkTarget]

theorem c2_nested_boundary_witness :
    namedAt csC2 0 [1] "Inner" ∧
    ("Inner" ∈ scopeComponentNames regC2) ∧
    underPath [0] [1] = false :=
  ⟨⟨.flow (some "Inner") [] [.flow (some "p") [] []],
      by simp [csC2, nodeAtL], rfl⟩,
   by simp [scopeComponentNames, regC2],
   c2_nested_boundary regC2 [("p", mkTarget "X")] csC2 _ _ innerL_evalC2
     [1] "Inner"
     ⟨.flow (some "Inner") [] [.flow (some "p") [] []],
       by simp [csC2, nodeAtL], rfl⟩
     (by simp [scopeComponentNames, regC2]) [0] (by simp)⟩

/-! ### Claim C4: the outer traversal beneath matched scope roots -/

/-- Discovery keys are registry keys (the discovery set is a subset of
the boundary set). -/
theorem mem_scope_of_active (registry : ScopedMdxTransformRegistry)
    (x : String) (hx : x ∈ activeScopeNames registry) :
    x ∈ scopeComponentNames registry := by
  unfold activeScopeNames at hx
  unfold scopeComponentNames
  simp only [List.mem_map, List.mem_filter] at hx ⊢
  obtain ⟨e, ⟨hmem, _⟩, hfst⟩ := hx
  exact ⟨e, hmem, hfst⟩

/-- The inner walk leaves a boundary-named direct child entirely
untouched (same node, same index). -/
theorem innerL_boundary_get (sn : List String)
    (rf : List (String × MdxRenameTarget)) :
    ∀ i cs cs2 l, innerL sn rf i cs = .ok (cs2, l) →
      ∀ j c m, cs.get? j = some c → c.nodeName = some m → m ∈ sn →
        cs2.get? j = some c := by
  apply innerL_rec sn rf
    (fun _ cs cs2 _ => ∀ j c m, cs.get? j = some c → c.nodeName = some m →
      m ∈ sn → cs2.get? j = some c)
  · intro i j c m hj
    simp at hj
  · intro i k a ch rest rest2 lr hk hrest ih j c m hj hm hmem
    cases j with
    | zero => simpa using hj
    | succ j2 =>
      simp only [List.get?_cons_succ] at hj ⊢
      exact ih j2 c m hj hm hmem
  · intro i k a ch rest target fd ch2 lc rest2 lr hk hlook happ hch ihc
      hrest ihr j c m hj hm hmem
    cases j with
    | zero =>
      simp only [List.get?_cons_zero, Option.some.injEq] at hj
      rw [← hj] at hm
      simp only [MdxNode.nodeName, Option.some.injEq] at hm
      rw [← hm] at hmem
      exact absurd hmem hk
    | succ j2 =>
      simp only [List.get?_cons_succ] at hj ⊢
      exact ihr j2 c m hj hm hmem
  · intro i k a ch rest ch2 lc rest2 lr hk hlook hch ihc hrest ihr
      j c m hj hm hmem
    cases j with
    | zero =>
      simp only [List.get?_cons_zero, Option.some.injEq] at hj
      rw [← hj] at hm
      simp only [MdxNode.nodeName, Option.some.injEq] at hm
      rw [← hm] at hmem
      exact absurd hmem hk
    | succ j2 =>
      simp only [List.get?_cons_succ] at hj ⊢
      exact ihr j2 c m hj hm hmem
  · intro i a ch rest ch2 lc rest2 lr hch ihc hrest ihr j c m hj hm hmem
    cases j with
    | zero =>
      simp only [List.get?_cons_zero, Option.some.injEq] at hj
      rw [← hj] at hm
      simp [MdxNode.nodeName] at hm
    | succ j2 =>
      simp only [List.get?_cons_succ] at hj ⊢
      exact ihr j2 c m hj hm hmem
  · intro i kd ch rest ch2 lc rest2 lr hch ihc hrest ihr j c m hj hm hmem
    cases j with
    | zero =>
      simp only [List.get?_cons_zero, Option.some.injEq] at hj
      rw [← hj] at hm
      simp [MdxNode.nodeName] at hm
    | succ j2 =>
      simp only [List.get?_cons_succ] at hj ⊢
      exact ihr j2 c m hj hm hmem

/-- The outer traversal matches every top-level node bearing an active
scope name: its position enters the scope log. -/
theorem outerL_child_discovered (registry : ScopedMdxTransformRegistry)
    (sn active : List String) :
    ∀ i cs cs2 rl sl, outerL registry sn active i cs = .ok (cs2, rl, sl) →
      ∀ j c m, cs.get? j = some c → c.nodeName = some m → m ∈ active →
        [i + j] ∈ sl := by
  apply outerL_rec registry sn active
    (fun i cs _ _ sl => ∀ j c m, cs.get? j = some c → c.nodeName = some m →
      m ∈ active → [i + j] ∈ sl)
  · intro i j c m hj
    simp at hj
  · intro i k a ch rest rfn ch1 il ch2 rl2 sl2 rest2 rlr slr hk hrfn hin
      hch ihc hrest ihr j c m hj hm hmem
    cases j with
    | zero => simp
    | succ j2 =>
      simp only [List.get?_cons_succ] at hj
      have := ihr j2 c m hj hm hmem
      have he : i + (j2 + 1) = (i + 1) + j2 := by omega
      rw [he]
      simp only [List.cons_append, List.mem_cons, List.mem_append]
      right
      right
      exact this
  · intro i k a ch rest ch2 rl2 sl2 rest2 rlr slr hk hrfn hch ihc
      hrest ihr j c m hj hm hmem
    cases j with
    | zero => simp
    | succ j2 =>
      simp only [List.get?_cons_succ] at hj
      have := ihr j2 c m hj hm hmem
      have he : i + (j2 + 1) = (i + 1) + j2 := by omega
      rw [he]
      simp only [List.cons_append, List.mem_cons, List.mem_append]
      right
      right
      exact this
  · intro i k a ch rest ch2 rl2 sl2 rest2 rlr slr hk hch ihc
      hrest ihr j c m hj hm hmem
    cases j with
    | zero =>
      simp only [List.get?_cons_zero, Option.some.injEq] at hj
      rw [← hj] at hm
      simp only [MdxNode.nodeName, Option.some.injEq] at hm
      rw [← hm] at hmem
      exact absurd hmem hk
    | succ j2 =>
      simp only [List.get?_cons_succ] at hj
      have := ihr j2 c m hj hm hmem
      have he : i + (j2 + 1) = (i + 1) + j2 := by omega
      rw [he]
      simp only [List.mem_append]
      right
      exact this
  · intro i a ch rest ch2 rl2 sl2 rest2 rlr slr hch ihc hrest ihr
      j c m hj hm hmem
    cases j with
    | zero =>
      simp only [List.get?_cons_zero, Option.some.injEq] at hj
      rw [← hj] at hm
      simp [MdxNode.nodeName] at hm
    | succ j2 =>
      simp only [List.get?_cons_succ] at hj
      have := ihr j2 c m hj hm hmem
      have he : i + (j2 + 1) = (i + 1) + j2 := by omega
      rw [he]
      simp only [List.mem_append]
      right
      exact this
  · intro i kd ch rest ch2 rl2 sl2 rest2 rlr slr hch ihc hrest ihr
      j c m hj hm hmem
    cases j with
    | zero =>
      simp only [List.get?_cons_zero, Option.some.injEq] at hj
      rw [← hj] at hm
      simp [MdxNode.nodeName] at hm
    | succ j2 =>
      simp only [List.get?_cons_succ] at hj
      have := ihr j2 c m hj hm hmem
      have he : i + (j2 + 1) = (i + 1) + j2 := by omega
      rw [he]
      simp only [List.mem_append]
      right
      exact this

/-- Claim C4 (amended): after scope discovery positively matches the
tree root as a scope root and invokes the boundary walker on it, the
outer traversal does descend beneath it: any direct child bearing an
active scope name is itself matched by the outer traversal, at a
position strictly inside the matched root's subtree. -/
theorem c4_amended (registry : ScopedMdxTransformRegistry)
    (n : String) (a : List MdxJsxAttribute) (ch ts : List MdxNode)
    (rl sl : List (List Nat)) (rfn : List (String × MdxRenameTarget))
    (j : Nat) (c : MdxNode) (m : String)
    (hrun : runScoped registry (.flow (some n) a ch) = .ok (ts, rl, sl))
    (hact : n ∈ activeScopeNames registry)
    (hrfn : activeRenameFlow registry n = some rfn)
    (hj : ch.get? j = some c) (hm : c.nodeName = some m)
    (hmact : m ∈ activeScopeNames registry) :
    [0] ∈ sl ∧ [0, j] ∈ sl ∧ underPath [0, j] [0] = true ∧
      [0, j] ≠ [0] := by
  unfold runScoped at hrun
  cases hinB : innerB (scopeComponentNames registry) rfn 0 ch with
  | error e => simp [outerL, if_pos hact, hrfn, hinB] at hrun
  | ok val =>
    obtain ⟨⟨ch1, il⟩, hbnd⟩ := val
    cases houter : outerL registry (scopeComponentNames registry)
        (activeScopeNames registry) 0 ch1 with
    | error e => simp [outerL, if_pos hact, hrfn, hinB, houter] at hrun
    | ok trip =>
      obtain ⟨ch2, rl2, sl2⟩ := trip
      simp only [outerL, if_pos hact, hrfn, hinB, houter,
        Except.ok.injEq, Prod.mk.injEq] at hrun
      obtain ⟨-, -, hsl⟩ := hrun
      have hin : innerL (scopeComponentNames registry) rfn 0 ch =
          .ok (ch1, il) :=
        (innerB_ok_iff (scopeComponentNames registry) rfn 0 ch
          (ch1, il) hbnd).mp hinB
      have hch1 : ch1.get? j = some c :=
        innerL_boundary_get (scopeComponentNames registry) rfn 0 ch ch1 il
          hin j c m hj hm (mem_scope_of_active registry m hmact)
      have hdisc : [0 + j] ∈ sl2 :=
        outerL_child_discovered registry (scopeComponentNames registry)
          (activeScopeNames registry) 0 ch1 ch2 rl2 sl2 houter j c m
          hch1 hm hmact
      rw [← hsl]
      refine ⟨by simp, ?_, by simp [underPath], by simp⟩
      simp only [List.cons_append, List.mem_cons, List.mem_append,
        List.mem_map]
      right
      left
      exact ⟨[j], by simpa using hdisc, rfl⟩

/-! ### Claim C5 counterexample: a node renamed twice in one pass -/

theorem innerL_evalC5a :
    innerL ["S", "Inner"] [("p", mkTarget "Inner"), ("q", mkTarget "u")] 0
      [.flow (some "p") [] [.flow (some "q") [] []]] =
      .ok ([.flow (some "Inner") [] [.flow (some "u") [] []]],
        [[0], [0, 0]]) := by
  simp [innerL, lookupStr, applyFlowRename, buildAttributes, isClearPolicy,
    mkTarget]

theorem innerL_evalC5b :
    innerL ["S", "Inner"] [("u", mkTarget "v")] 0
      [.flow (some "u") [] []] =
      .ok ([.flow (some "v") [] []], [[0]]) := by
  simp [innerL, lookupStr, applyFlowRename, buildAttributes, isClearPolicy,
    mkTarget]

/-- Claim C5 counterexample: with registry `regC5` (scope `S` renames
`p` to the scope name `Inner` and `q` to `u`; scope `Inner` renames `u`
to `v`) and tree `root > S > p > q`, one whole-tree transformation
renames the node at position `[0,0,0,0]` (the `q` node) twice: once by
`S`'s walk (`q` to `u`) and again by `Inner`'s walk (`u` to `v`) after
the renamed `p` node is re-matched as an `Inner` scope root.  The rename
log records position `[0,0,0,0]` twice, refuting at-most-once
mutation. -/
theorem c5_counterexample :
    runScoped regC5 treeC5 =
      .ok ([.other "root" [.flow (some "S") []
          [.flow (some "Inner") [] [.flow (some "v") [] []]]]],
        [[0, 0, 0], [0, 0, 0, 0], [0, 0, 0, 0]],
        [[0, 0], [0, 0, 0]]) ∧
    List.count [0, 0, 0, 0]
      ([[0, 0, 0], [0, 0, 0, 0], [0, 0, 0, 0]] : List (List Nat)) = 2 ∧
    ¬ ([[0, 0, 0], [0, 0, 0, 0], [0, 0, 0, 0]] : List (List Nat)).Nodup := by
  have hB1 := innerB_eval _ _ _ _ _ (by simp [countList, countNode])
    innerL_evalC5a
  have hB2 := innerB_eval _ _ _ _ _ (by simp [countList, countNode])
    innerL_evalC5b
  refine ⟨?_, by decide, by decide⟩
  simp [runScoped, outerL, regC5, treeC5, scopeComponentNames,
    activeScopeNames, activeRenameFlow, lookupStr, truthyRenameFlow,
    hasOwnRenameFlow, hB1, hB2]

/-! ### Claim C1 counterexample: a rename reaches a tag outside every
`S`-rooted subtree -/

theorem innerL_evalC1a :
    innerL ["A", "S"] [("b", mkTarget "S")] 0
      [.flow (some "b") [] [.flow (some "T") [] []]] =
      .ok ([.flow (some "S") [] [.flow (some "T") [] []]], [[0]]) := by
  simp [innerL, lookupStr, applyFlowRename, buildAttributes, isClearPolicy,
    mkTarget]

theorem innerL_evalC1b :
    innerL ["A", "S"] [("T", mkTarget "Z")] 0
      [.flow (some "T") [] []] =
      .ok ([.flow (some "Z") [] []], [[0]]) := by
  simp [innerL, lookupStr, applyFlowRename, buildAttributes, isClearPolicy,
    mkTarget]

/-- Claim C1 counterexample: in registry `regC1`, the tag name `T`
appears as a source key only in the rename map of scope `S`.  In the
input tree `root > A > b > T` the `T` node (position `[0,0,0,0]`) has no
node named `S` anywhere above it (indeed the input contains no `S` node
at all), yet the transformation renames it: scope `A` first renames `b`
to `S`, the outer traversal re-matches that renamed node as an `S` scope
root, and `S`'s rename map then renames the `T` node to `Z`.  Its
position is in the rename log and its name changed, refuting scope
exclusivity as claimed. -/
theorem c1_counterexample :
    namedAt [treeC1] 0 [0, 0, 0, 0] "T" ∧
    noScopeAbove "S" [treeC1] 0 [0, 0, 0, 0] ∧
    runScoped regC1 treeC1 =
      .ok ([.other "root" [.flow (some "A") []
          [.flow (some "S") [] [.flow (some "Z") [] []]]]],
        [[0, 0, 0], [0, 0, 0, 0]], [[0, 0], [0, 0, 0]]) ∧
    [0, 0, 0, 0] ∈ ([[0, 0, 0], [0, 0, 0, 0]] : List (List Nat)) := by
  have hB1 := innerB_eval _ _ _ _ _ (by simp [countList, countNode])
    innerL_evalC1a
  have hB2 := innerB_eval _ _ _ _ _ (by simp [countList, countNode])
    innerL_evalC1b
  refine ⟨?_, ?_, ?_, by simp⟩
  · refine ⟨.flow (some "T") [] [], ?_, rfl⟩
    simp [treeC1, nodeAtL, MdxNode.childrenOf]
  · apply noScopeAbove_of_not_contains
    simp [containsNameL, treeC1]
  · simp [runScoped, outerL, regC1, treeC1, scopeComponentNames,
      activeScopeNames, activeRenameFlow, lookupStr, truthyRenameFlow,
      hasOwnRenameFlow, hB1, hB2]

/-! ### Claim C4 counterexample: the outer traversal descends beneath a
matched scope root -/

theorem innerL_evalC4 :
    innerL ["Outer", "Inner"] ([] : List (String × MdxRenameTarget)) 0
      [.flow (some "Inner") [] []] =
      .ok ([.flow (some "Inner") [] []], []) := by
  simp [innerL]

/-- Claim C4 counterexample: with registry `regC4` (both `Outer` and
`Inner` declare rename maps) and tree `root > Outer > Inner`, the outer
traversal positively matches `Outer` (position `[0,0]`, in the scope
log) and then still visits and matches the node `Inner` at position
`[0,0,0]`, strictly inside `Outer`'s subtree — the outer visitor does
not suppress descent beneath a matched scope root. -/
theorem c4_counterexample :
    runScoped regC4 treeC4 =
      .ok ([treeC4], [], [[0, 0], [0, 0, 0]]) ∧
    ([0, 0] ∈ ([[0, 0], [0, 0, 0]] : List (List Nat))) ∧
    ([0, 0, 0] ∈ ([[0, 0], [0, 0, 0]] : List (List Nat))) ∧
    underPath [0, 0, 0] [0, 0] = true ∧
    [0, 0, 0] ≠ [0, 0] := by
  have hB1 := innerB_eval ["Outer", "Inner"] [] 0
    [.flow (some "Inner") [] []] ([.flow (some "Inner") [] []], [])
    (by simp [countList, countNode]) innerL_evalC4
  have hB2 := innerB_eval ["Outer", "Inner"] [] 0 [] ([], [])
    (le_refl _) (by simp [innerL])
  refine ⟨?_, by simp, by simp, by decide, by decide⟩
  simp [runScoped, outerL, regC4, treeC4, scopeComponentNames,
    activeScopeNames, activeRenameFlow, lookupStr, truthyRenameFlow,
    hasOwnRenameFlow, hB1, hB2]

/-! ### Auxiliary lemmas for the scope-exclusivity frame property -/

theorem lookupStr_mem {α : Type} (l : List (String × α)) (k : String)
    (v : α) (h : lookupStr l k = some v) : (k, v) ∈ l := by
  induction l with
  | nil => simp [lookupStr] at h
  | cons e rest ih =>
    obtain ⟨n, w⟩ := e
    unfold lookupStr at h
    by_cases hn : n = k
    · rw [if_pos hn] at h
      cases h
      simp [hn]
    · rw [if_neg hn] at h
      simp [ih h]

theorem lookupStr_mem_keys (rf : List (String × MdxRenameTarget))
    (k : String) (v : MdxRenameTarget) (h : lookupStr rf k = some v) :
    k ∈ rfKeys rf := by
  unfold rfKeys
  exact List.mem_map.mpr ⟨(k, v), lookupStr_mem rf k v h, rfl⟩

theorem mem_registryTargetNames (registry : ScopedMdxTransformRegistry)
    (N : String) (rule : MdxTransformRule)
    (m : List (String × MdxRenameTarget)) (x : String)
    (hmem : (N, rule) ∈ registry)
    (htr : truthyRenameFlow rule.renameFlow = some m)
    (hx : x ∈ rfTargetNames m) : x ∈ registryTargetNames registry := by
  induction registry with
  | nil => simp at hmem
  | cons e rest ih =>
    unfold registryTargetNames
    rcases List.mem_cons.mp hmem with heq | hmem2
    · rw [← heq]
      simp only [List.foldr_cons, htr, List.mem_append]
      exact Or.inl hx
    · simp only [List.foldr_cons, List.mem_append]
      right
      exact ih hmem2

theorem activeRenameFlow_targets (registry : ScopedMdxTransformRegistry)
    (N : String) (m : List (String × MdxRenameTarget))
    (h : activeRenameFlow registry N = some m) :
    ∀ e ∈ m, e.2.component.name ∈ registryTargetNames registry := by
  intro e he
  unfold activeRenameFlow at h
  cases hl : lookupStr registry N with
  | none => rw [hl] at h; exact absurd h (by simp)
  | some rule =>
    rw [hl] at h
    apply mem_registryTargetNames registry N rule m e.2.component.name
      (lookupStr_mem registry N rule hl) h
    exact List.mem_map.mpr ⟨e, he, rfl⟩

theorem applyFlowRename_ok_name (element : FlowFields)
    (target : MdxRenameTarget) (fd : FlowFields)
    (h : applyFlowRename element target = .ok fd) :
    fd.name = some target.component.name := by
  unfold applyFlowRename at h
  cases hb : buildAttributes target.component.props <;> rw [hb] at h
  · exact absurd h (by simp)
  · cases h
    rfl

theorem evgList_refl (tns : List String) (tT tS : String) :
    ∀ (n : Nat) (cs : List MdxNode), countList cs ≤ n → ∀ g,
      EvGList tns tT tS g cs cs := by
  intro n
  induction n with
  | zero =>
    intro cs h g
    cases cs with
    | nil => exact .nil
    | cons c rest =>
      exfalso
      have : 1 ≤ countNode c := by
        cases c <;> simp [countNode]
      simp [countList] at h
      omega
  | succ n ih =>
    intro cs h g
    cases cs with
    | nil => exact .nil
    | cons c rest =>
      have hc : ∀ g2, EvG tns tT tS g2 c c := by
        intro g2
        cases c with
        | flow nm a cs2 =>
          refine .keep (ih cs2 ?_ _)
          simp [countList, countNode] at h
          omega
        | other kd cs2 =>
          refine .other (ih cs2 ?_ _)
          simp [countList, countNode] at h
          omega
      refine .cons (hc g) (ih rest ?_ g)
      have : 1 ≤ countNode c := by
        cases c <;> simp [countNode]
      simp [countList] at h
      omega

theorem noScopeAbove_cons_ne (tS : String) (c0 : MdxNode)
    (rest0 : List MdxNode) (i0 j : Nat) (p : List Nat) (h : j ≠ i0) :
    noScopeAbove tS (c0 :: rest0) i0 (j :: p) ↔
      noScopeAbove tS rest0 (i0+1) (j :: p) := by
  unfold noScopeAbove
  constructor <;> intro hh q hq
  · rcases q with _ | ⟨j2, q2⟩
    · exact not_namedAt_nil_pos _ _ _
    · rw [underPath_cons_cons] at hq
      simp only [Bool.and_eq_true, beq_iff_eq] at hq
      obtain ⟨rfl, hq2⟩ := hq
      intro hn
      exact hh (j :: q2)
        (by rw [underPath_cons_cons]; simp [hq2])
        ((namedAt_cons_ne _ _ _ _ _ _ h).mpr hn)
  · rcases q with _ | ⟨j2, q2⟩
    · exact not_namedAt_nil_pos _ _ _
    · rw [underPath_cons_cons] at hq
      simp only [Bool.and_eq_true, beq_iff_eq] at hq
      obtain ⟨rfl, hq2⟩ := hq
      intro hn
      exact hh (j :: q2)
        (by rw [underPath_cons_cons]; simp [hq2])
        ((namedAt_cons_ne _ _ _ _ _ _ h).mp hn)

theorem noScopeAbove_cons_deep (tS : String) (c0 : MdxNode)
    (rest0 : List MdxNode) (i0 j : Nat) (p : List Nat) :
    noScopeAbove tS (c0 :: rest0) i0 (i0 :: j :: p) ↔
      (c0.nodeName ≠ some tS ∧
        noScopeAbove tS c0.childrenOf 0 (j :: p)) := by
  constructor
  · intro h
    refine ⟨?_, ?_⟩
    · intro hn
      exact h [i0]
        (by rw [underPath_cons_cons]; simp [underPath_any_nil])
        ((namedAt_cons_self _ _ _ _).mpr hn)
    · intro q hq
      rcases q with _ | ⟨j2, q2⟩
      · exact not_namedAt_nil_pos _ _ _
      · intro hn
        exact h (i0 :: j2 :: q2)
          (by rw [underPath_cons_cons]; simp [hq])
          ((namedAt_cons_deep _ _ _ _ _ _).mpr hn)
  · rintro ⟨h1, h2⟩ q hq
    rcases q with _ | ⟨j2, q2⟩
    · exact not_namedAt_nil_pos _ _ _
    · rw [underPath_cons_cons] at hq
      simp only [Bool.and_eq_true, beq_iff_eq] at hq
      obtain ⟨rfl, hq2⟩ := hq
      rcases q2 with _ | ⟨j3, q3⟩
      · intro hn
        exact h1 ((namedAt_cons_self _ _ _ _).mp hn)
      · intro hn
        exact h2 (j3 :: q3) hq2 ((namedAt_cons_deep _ _ _ _ _ _).mp hn)

/-- Every path in an outer-walk rename log starts with a child index at
or beyond the walk's starting index. -/
theorem outerL_log_head (registry : ScopedMdxTransformRegistry)
    (sn active : List String) :
    ∀ i cs cs2 rl sl, outerL registry sn active i cs = .ok (cs2, rl, sl) →
      ∀ q ∈ rl, ∃ j p, q = j :: p ∧ i ≤ j := by
  apply outerL_rec registry sn active
    (fun i _ _ rl _ => ∀ q ∈ rl, ∃ j p, q = j :: p ∧ i ≤ j)
  · simp
  · intro i k a ch rest rfn ch1 il ch2 rl2 sl2 rest2 rlr slr _ _ _ _ _ _
      ihr q hq
    simp only [List.mem_append, List.mem_map] at hq
    rcases hq with (⟨p, _, rfl⟩ | ⟨p, _, rfl⟩) | hq
    · exact ⟨i, p, rfl, le_refl i⟩
    · exact ⟨i, p, rfl, le_refl i⟩
    · obtain ⟨j, p, rfl, hij⟩ := ihr q hq
      exact ⟨j, p, rfl, by omega⟩
  · intro i k a ch rest ch2 rl2 sl2 rest2 rlr slr _ _ _ _ _ ihr q hq
    simp only [List.mem_append, List.mem_map] at hq
    rcases hq with ⟨p, _, rfl⟩ | hq
    · exact ⟨i, p, rfl, le_refl i⟩
    · obtain ⟨j, p, rfl, hij⟩ := ihr q hq
      exact ⟨j, p, rfl, by omega⟩
  · intro i k a ch rest ch2 rl2 sl2 rest2 rlr slr _ _ _ _ ihr q hq
    simp only [List.mem_append, List.mem_map] at hq
    rcases hq with ⟨p, _, rfl⟩ | hq
    · exact ⟨i, p, rfl, le_refl i⟩
    · obtain ⟨j, p, rfl, hij⟩ := ihr q hq
      exact ⟨j, p, rfl, by omega⟩
  · intro i a ch rest ch2 rl2 sl2 rest2 rlr slr _ _ _ ihr q hq
    simp only [List.mem_append, List.mem_map] at hq
    rcases hq with ⟨p, _, rfl⟩ | hq
    · exact ⟨i, p, rfl, le_refl i⟩
    · obtain ⟨j, p, rfl, hij⟩ := ihr q hq
      exact ⟨j, p, rfl, by omega⟩
  · intro i kd ch rest ch2 rl2 sl2 rest2 rlr slr _ _ _ ihr q hq
    simp only [List.mem_append, List.mem_map] at hq
    rcases hq with ⟨p, _, rfl⟩ | hq
    · exact ⟨i, p, rfl, le_refl i⟩
    · obtain ⟨j, p, rfl, hij⟩ := ihr q hq
      exact ⟨j, p, rfl, by omega⟩

/-! ### The inner walk preserves the evolution relation

`innerL_evg`: one inner walk (rename map `rf`, all of whose targets lie
in `tns`) maps a tree evolved from `cs0` to another tree evolved from
`cs0`; and — when no `tS`-named node lies above (`g = false`) and the
walk can only rename a `tT`-named node under guard (`tT ∈ rfKeys rf →
g = true`) — no logged rename position holds an original `tT` node
outside every `tS`-rooted subtree. -/

theorem innerL_evg (tns : List String) (tT tS : String) (sn : List String)
    (rf : List (String × MdxRenameTarget))
    (htgt : ∀ e ∈ rf, e.2.component.name ∈ tns) :
    ∀ i cs cs2 l, innerL sn rf i cs = .ok (cs2, l) →
      ∀ g cs0, EvGList tns tT tS g cs0 cs → (tT ∈ rfKeys rf → g = true) →
        EvGList tns tT tS g cs0 cs2 ∧
          (g = false → ∀ p ∈ l,
            ¬ (namedAt cs0 i p tT ∧ noScopeAbove tS cs0 i p)) := by
  apply innerL_rec sn rf
    (fun i cs cs2 l => ∀ g cs0, EvGList tns tT tS g cs0 cs →
      (tT ∈ rfKeys rf → g = true) →
      EvGList tns tT tS g cs0 cs2 ∧
        (g = false → ∀ p ∈ l,
          ¬ (namedAt cs0 i p tT ∧ noScopeAbove tS cs0 i p)))
  · intro i g cs0 hev hTg
    cases hev
    refine ⟨.nil, ?_⟩
    intro _ p hp
    simp at hp
  · -- nested-scope boundary: head untouched, log from the rest only
    intro i k a ch rest rest2 lr hk hrest ihr g cs0 hev hTg
    cases hev with
    | cons hc hl =>
      rename_i c0 rest0
      obtain ⟨hrest2, hsafe⟩ := ihr g rest0 hl hTg
      refine ⟨.cons hc hrest2, ?_⟩
      intro hg p hp hbad
      obtain ⟨j, p2, rfl, hij⟩ :=
        innerL_log_head sn rf (i+1) rest rest2 lr hrest p hp
      obtain ⟨hT1, hS1⟩ := hbad
      have hj : j ≠ i := by omega
      exact hsafe hg (j :: p2) hp
        ⟨(namedAt_cons_ne _ _ _ _ _ _ hj).mp hT1,
         (noScopeAbove_cons_ne _ _ _ _ _ _ hj).mp hS1⟩
  · -- rename hit on the head
    intro i k a ch rest target fd ch2 lc rest2 lr hk hlook happ hch ihc
      hrest ihr g cs0 hev hTg
    have htname := applyFlowRename_ok_name _ _ _ happ
    have htmem : target.component.name ∈ tns :=
      htgt (k, target) (lookupStr_mem rf k target hlook)
    have hTg1 : ∀ b : Bool, tT ∈ rfKeys rf → (g || b) = true :=
      fun b h2 => by simp [hTg h2]
    cases hev with
    | cons hc hl =>
      rename_i c0 rest0
      obtain ⟨hrest2, hsafer⟩ := ihr g rest0 hl hTg
      cases hc with
      | keep hlk =>
        rename_i cs00
        have hcond : g = true ∨ (some k : Option String) ≠ some tT := by
          by_cases hkT : k = tT
          · exact Or.inl (hTg (hkT ▸ lookupStr_mem_keys rf k target hlook))
          · exact Or.inr (by simp [hkT])
        by_cases hclear : isClearPolicy target = true
        · rw [if_pos hclear] at hch
          have hche : ch2 = [] ∧ lc = [] := by
            simp only [innerL, Except.ok.injEq, Prod.mk.injEq] at hch
            exact ⟨hch.1.symm, hch.2.symm⟩
          obtain ⟨rfl, rfl⟩ := hche
          have hhead : EvG tns tT tS g (.flow (some k) a cs00)
              (.flow fd.name fd.attributes []) := by
            rw [htname]
            exact .renClear htmem hcond
          refine ⟨.cons hhead hrest2, ?_⟩
          intro hg p hp hbad
          simp only [List.map_nil, List.cons_append, List.nil_append,
            List.mem_cons] at hp
          rcases hp with rfl | hp
          · obtain ⟨hT1, _⟩ := hbad
            have hn := (namedAt_cons_self _ _ _ _).mp hT1
            simp only [MdxNode.nodeName, Option.some.injEq] at hn
            rcases hcond with hgt | hne
            · rw [hg] at hgt
              exact absurd hgt (by simp)
            · exact hne (by rw [hn])
          · obtain ⟨j, p2, rfl, hij⟩ :=
              innerL_log_head sn rf (i+1) rest rest2 lr hrest p hp
            obtain ⟨hT1, hS1⟩ := hbad
            have hj : j ≠ i := by omega
            exact hsafer hg (j :: p2) hp
              ⟨(namedAt_cons_ne _ _ _ _ _ _ hj).mp hT1,
               (noScopeAbove_cons_ne _ _ _ _ _ _ hj).mp hS1⟩
        · rw [if_neg hclear] at hch ihc
          obtain ⟨hch2, hsafec⟩ :=
            ihc (g || decide ((some k : Option String) = some tS)) cs00
              hlk (hTg1 _)
          have hhead : EvG tns tT tS g (.flow (some k) a cs00)
              (.flow fd.name fd.attributes ch2) := by
            rw [htname]
            exact .ren htmem hcond hch2
          refine ⟨.cons hhead hrest2, ?_⟩
          intro hg p hp hbad
          simp only [List.cons_append, List.mem_cons, List.mem_append,
            List.mem_map] at hp
          rcases hp with rfl | ⟨p2, hp2, rfl⟩ | hp
          · obtain ⟨hT1, _⟩ := hbad
            have hn := (namedAt_cons_self _ _ _ _).mp hT1
            simp only [MdxNode.nodeName, Option.some.injEq] at hn
            rcases hcond with hgt | hne
            · rw [hg] at hgt
              exact absurd hgt (by simp)
            · exact hne (by rw [hn])
          · obtain ⟨j2, p3, rfl, _⟩ :=
              innerL_log_head sn rf 0 ch ch2 lc hch p2 hp2
            obtain ⟨hT1, hS1⟩ := hbad
            have hTc : namedAt cs00 0 (j2 :: p3) tT := by
              have := (namedAt_cons_deep (.flow (some k) a cs00) rest0
                i j2 p3 tT).mp hT1
              simpa [MdxNode.childrenOf] using this
            have hSc := (noScopeAbove_cons_deep tS (.flow (some k) a cs00)
              rest0 i j2 p3).mp hS1
            have hknS : k ≠ tS := by
              have := hSc.1
              simpa [MdxNode.nodeName] using this
            have hg1 : (g || decide ((some k : Option String) = some tS))
                = false := by
              simp [hg, hknS]
            refine hsafec hg1 (j2 :: p3) hp2 ⟨hTc, ?_⟩
            simpa [MdxNode.childrenOf] using hSc.2
          · obtain ⟨j, p2, rfl, hij⟩ :=
              innerL_log_head sn rf (i+1) rest rest2 lr hrest p hp
            obtain ⟨hT1, hS1⟩ := hbad
            have hj : j ≠ i := by omega
            exact hsafer hg (j :: p2) hp
              ⟨(namedAt_cons_ne _ _ _ _ _ _ hj).mp hT1,
               (noScopeAbove_cons_ne _ _ _ _ _ _ hj).mp hS1⟩
      | ren htm hcond0 hlk =>
        rename_i n0 a0 cs00
        by_cases hclear : isClearPolicy target = true
        · rw [if_pos hclear] at hch
          have hche : ch2 = [] ∧ lc = [] := by
            simp only [innerL, Except.ok.injEq, Prod.mk.injEq] at hch
            exact ⟨hch.1.symm, hch.2.symm⟩
          obtain ⟨rfl, rfl⟩ := hche
          have hhead : EvG tns tT tS g (.flow n0 a0 cs00)
              (.flow fd.name fd.attributes []) := by
            rw [htname]
            exact .renClear htmem hcond0
          refine ⟨.cons hhead hrest2, ?_⟩
          intro hg p hp hbad
          simp only [List.map_nil, List.cons_append, List.nil_append,
            List.mem_cons] at hp
          rcases hp with rfl | hp
          · obtain ⟨hT1, _⟩ := hbad
            have hn := (namedAt_cons_self _ _ _ _).mp hT1
            simp only [MdxNode.nodeName] at hn
            rcases hcond0 with hgt | hne
            · rw [hg] at hgt
              exact absurd hgt (by simp)
            · exact hne hn
          · obtain ⟨j, p2, rfl, hij⟩ :=
              innerL_log_head sn rf (i+1) rest rest2 lr hrest p hp
            obtain ⟨hT1, hS1⟩ := hbad
            have hj : j ≠ i := by omega
            exact hsafer hg (j :: p2) hp
              ⟨(namedAt_cons_ne _ _ _ _ _ _ hj).mp hT1,
               (noScopeAbove_cons_ne _ _ _ _ _ _ hj).mp hS1⟩
        · rw [if_neg hclear] at hch ihc
          obtain ⟨hch2, hsafec⟩ :=
            ihc (g || decide (n0 = some tS)) cs00 hlk (hTg1 _)
          have hhead : EvG tns tT tS g (.flow n0 a0 cs00)
              (.flow fd.name fd.attributes ch2) := by
            rw [htname]
            exact .ren htmem hcond0 hch2
          refine ⟨.cons hhead hrest2, ?_⟩
          intro hg p hp hbad
          simp only [List.cons_append, List.mem_cons, List.mem_append,
            List.mem_map] at hp
          rcases hp with rfl | ⟨p2, hp2, rfl⟩ | hp
          · obtain ⟨hT1, _⟩ := hbad
            have hn := (namedAt_cons_self _ _ _ _).mp hT1
            simp only [MdxNode.nodeName] at hn
            rcases hcond0 with hgt | hne
            · rw [hg] at hgt
              exact absurd hgt (by simp)
            · exact hne hn
          · obtain ⟨j2, p3, rfl, _⟩ :=
              innerL_log_head sn rf 0 ch ch2 lc hch p2 hp2
            obtain ⟨hT1, hS1⟩ := hbad
            have hTc : namedAt cs00 0 (j2 :: p3) tT := by
              have := (namedAt_cons_deep (.flow n0 a0 cs00) rest0
                i j2 p3 tT).mp hT1
              simpa [MdxNode.childrenOf] using this
            have hSc := (noScopeAbove_cons_deep tS (.flow n0 a0 cs00)
              rest0 i j2 p3).mp hS1
            have hknS : n0 ≠ some tS := by
              have := hSc.1
              simpa [MdxNode.nodeName] using this
            have hg1 : (g || decide (n0 = some tS)) = false := by
              simp [hg, hknS]
            refine hsafec hg1 (j2 :: p3) hp2 ⟨hTc, ?_⟩
            simpa [MdxNode.childrenOf] using hSc.2
          · obtain ⟨j, p2, rfl, hij⟩ :=
              innerL_log_head sn rf (i+1) rest rest2 lr hrest p hp
            obtain ⟨hT1, hS1⟩ := hbad
            have hj : j ≠ i := by omega
            exact hsafer hg (j :: p2) hp
              ⟨(namedAt_cons_ne _ _ _ _ _ _ hj).mp hT1,
               (noScopeAbove_cons_ne _ _ _ _ _ _ hj).mp hS1⟩
      | renClear htm hcond0 =>
        rename_i n0 a0 cs00
        have hif : (if isClearPolicy target = true then []
            else ([] : List MdxNode)) = [] := by
          split <;> rfl
        rw [hif] at hch
        have hche : ch2 = [] ∧ lc = [] := by
          simp only [innerL, Except.ok.injEq, Prod.mk.injEq] at hch
          exact ⟨hch.1.symm, hch.2.symm⟩
        obtain ⟨rfl, rfl⟩ := hche
        have hhead : EvG tns tT tS g (.flow n0 a0 cs00)
            (.flow fd.name fd.attributes []) := by
          rw [htname]
          exact .renClear htmem hcond0
        refine ⟨.cons hhead hrest2, ?_⟩
        intro hg p hp hbad
        simp only [List.map_nil, List.cons_append, List.nil_append,
          List.mem_cons] at hp
        rcases hp with rfl | hp
        · obtain ⟨hT1, _⟩ := hbad
          have hn := (namedAt_cons_self _ _ _ _).mp hT1
          simp only [MdxNode.nodeName] at hn
          rcases hcond0 with hgt | hne
          · rw [hg] at hgt
            exact absurd hgt (by simp)
          · exact hne hn
        · obtain ⟨j, p2, rfl, hij⟩ :=
            innerL_log_head sn rf (i+1) rest rest2 lr hrest p hp
          obtain ⟨hT1, hS1⟩ := hbad
          have hj : j ≠ i := by omega
          exact hsafer hg (j :: p2) hp
            ⟨(namedAt_cons_ne _ _ _ _ _ _ hj).mp hT1,
             (noScopeAbove_cons_ne _ _ _ _ _ _ hj).mp hS1⟩
  · -- named head with no rename rule: descend
    intro i k a ch rest ch2 lc rest2 lr hk hlook hch ihc hrest ihr
      g cs0 hev hTg
    have hTg1 : ∀ b : Bool, tT ∈ rfKeys rf → (g || b) = true :=
      fun b h2 => by simp [hTg h2]
    cases hev with
    | cons hc hl =>
      rename_i c0 rest0
      obtain ⟨hrest2, hsafer⟩ := ihr g rest0 hl hTg
      cases hc with
      | keep hlk =>
        rename_i cs00
        obtain ⟨hch2, hsafec⟩ :=
          ihc (g || decide ((some k : Option String) = some tS)) cs00
            hlk (hTg1 _)
        refine ⟨.cons (.keep hch2) hrest2, ?_⟩
        intro hg p hp hbad
        simp only [List.mem_append, List.mem_map] at hp
        rcases hp with ⟨p2, hp2, rfl⟩ | hp
        · obtain ⟨j2, p3, rfl, _⟩ :=
            innerL_log_head sn rf 0 ch ch2 lc hch p2 hp2
          obtain ⟨hT1, hS1⟩ := hbad
          have hTc : namedAt cs00 0 (j2 :: p3) tT := by
            have := (namedAt_cons_deep (.flow (some k) a cs00) rest0
              i j2 p3 tT).mp hT1
            simpa [MdxNode.childrenOf] using this
          have hSc := (noScopeAbove_cons_deep tS (.flow (some k) a cs00)
            rest0 i j2 p3).mp hS1
          have hknS : k ≠ tS := by
            have := hSc.1
            simpa [MdxNode.nodeName] using this
          have hg1 : (g || decide ((some k : Option String) = some tS))
              = false := by
            simp [hg, hknS]
          refine hsafec hg1 (j2 :: p3) hp2 ⟨hTc, ?_⟩
          simpa [MdxNode.childrenOf] using hSc.2
        · obtain ⟨j, p2, rfl, hij⟩ :=
            innerL_log_head sn rf (i+1) rest rest2 lr hrest p hp
          obtain ⟨hT1, hS1⟩ := hbad
          have hj : j ≠ i := by omega
          exact hsafer hg (j :: p2) hp
            ⟨(namedAt_cons_ne _ _ _ _ _ _ hj).mp hT1,
             (noScopeAbove_cons_ne _ _ _ _ _ _ hj).mp hS1⟩
      | ren htm hcond0 hlk =>
        rename_i n0 a0 cs00
        obtain ⟨hch2, hsafec⟩ :=
          ihc (g || decide (n0 = some tS)) cs00 hlk (hTg1 _)
        refine ⟨.cons (.ren htm hcond0 hch2) hrest2, ?_⟩
        intro hg p hp hbad
        simp only [List.mem_append, List.mem_map] at hp
        rcases hp with ⟨p2, hp2, rfl⟩ | hp
        · obtain ⟨j2, p3, rfl, _⟩ :=
            innerL_log_head sn rf 0 ch ch2 lc hch p2 hp2
          obtain ⟨hT1, hS1⟩ := hbad
          have hTc : namedAt cs00 0 (j2 :: p3) tT := by
            have := (namedAt_cons_deep (.flow n0 a0 cs00) rest0
              i j2 p3 tT).mp hT1
            simpa [MdxNode.childrenOf] using this
          have hSc := (noScopeAbove_cons_deep tS (.flow n0 a0 cs00)
            rest0 i j2 p3).mp hS1
          have hknS : n0 ≠ some tS := by
            have := hSc.1
            simpa [MdxNode.nodeName] using this
          have hg1 : (g || decide (n0 = some tS)) = false := by
            simp [hg, hknS]
          refine hsafec hg1 (j2 :: p3) hp2 ⟨hTc, ?_⟩
          simpa [MdxNode.childrenOf] using hSc.2
        · obtain ⟨j, p2, rfl, hij⟩ :=
            innerL_log_head sn rf (i+1) rest rest2 lr hrest p hp
          obtain ⟨hT1, hS1⟩ := hbad
          have hj : j ≠ i := by omega
          exact hsafer hg (j :: p2) hp
            ⟨(namedAt_cons_ne _ _ _ _ _ _ hj).mp hT1,
             (noScopeAbove_cons_ne _ _ _ _ _ _ hj).mp hS1⟩
      | renClear htm hcond0 =>
        rename_i n0 a0 cs00
        have hche : ch2 = [] ∧ lc = [] := by
          simp only [innerL, Except.ok.injEq, Prod.mk.injEq] at hch
          exact ⟨hch.1.symm, hch.2.symm⟩
        obtain ⟨rfl, rfl⟩ := hche
        refine ⟨.cons (.renClear htm hcond0) hrest2, ?_⟩
        intro hg p hp hbad
        simp only [List.map_nil, List.nil_append] at hp
        obtain ⟨j, p2, rfl, hij⟩ :=
          innerL_log_head sn rf (i+1) rest rest2 lr hrest p hp
        obtain ⟨hT1, hS1⟩ := hbad
        have hj : j ≠ i := by omega
        exact hsafer hg (j :: p2) hp
          ⟨(namedAt_cons_ne _ _ _ _ _ _ hj).mp hT1,
           (noScopeAbove_cons_ne _ _ _ _ _ _ hj).mp hS1⟩
  · -- unnamed flow element: descend
    intro i a ch rest ch2 lc rest2 lr hch ihc hrest ihr g cs0 hev hTg
    have hTg1 : ∀ b : Bool, tT ∈ rfKeys rf → (g || b) = true :=
      fun b h2 => by simp [hTg h2]
    cases hev with
    | cons hc hl =>
      rename_i c0 rest0
      obtain ⟨hrest2, hsafer⟩ := ihr g rest0 hl hTg
      cases hc with
      | keep hlk =>
        rename_i cs00
        obtain ⟨hch2, hsafec⟩ :=
          ihc (g || decide ((none : Option String) = some tS)) cs00
            hlk (hTg1 _)
        refine ⟨.cons (.keep hch2) hrest2, ?_⟩
        intro hg p hp hbad
        simp only [List.mem_append, List.mem_map] at hp
        rcases hp with ⟨p2, hp2, rfl⟩ | hp
        · obtain ⟨j2, p3, rfl, _⟩ :=
            innerL_log_head sn rf 0 ch ch2 lc hch p2 hp2
          obtain ⟨hT1, hS1⟩ := hbad
          have hTc : namedAt cs00 0 (j2 :: p3) tT := by
            have := (namedAt_cons_deep (.flow none a cs00) rest0
              i j2 p3 tT).mp hT1
            simpa [MdxNode.childrenOf] using this
          have hSc := (noScopeAbove_cons_deep tS (.flow none a cs00)
            rest0 i j2 p3).mp hS1
          have hg1 : (g || decide ((none : Option String) = some tS))
              = false := by
            simp [hg]
          refine hsafec hg1 (j2 :: p3) hp2 ⟨hTc, ?_⟩
          simpa [MdxNode.childrenOf] using hSc.2
        · obtain ⟨j, p2, rfl, hij⟩ :=
            innerL_log_head sn rf (i+1) rest rest2 lr hrest p hp
          obtain ⟨hT1, hS1⟩ := hbad
          have hj : j ≠ i := by omega
          exact hsafer hg (j :: p2) hp
            ⟨(namedAt_cons_ne _ _ _ _ _ _ hj).mp hT1,
             (noScopeAbove_cons_ne _ _ _ _ _ _ hj).mp hS1⟩
  · -- other node: descend
    intro i kd ch rest ch2 lc rest2 lr hch ihc hrest ihr g cs0 hev hTg
    cases hev with
    | cons hc hl =>
      rename_i c0 rest0
      obtain ⟨hrest2, hsafer⟩ := ihr g rest0 hl hTg
      cases hc with
      | other hlk =>
        rename_i cs00
        obtain ⟨hch2, hsafec⟩ := ihc g cs00 hlk hTg
        refine ⟨.cons (.other hch2) hrest2, ?_⟩
        intro hg p hp hbad
        simp only [List.mem_append, List.mem_map] at hp
        rcases hp with ⟨p2, hp2, rfl⟩ | hp
        · obtain ⟨j2, p3, rfl, _⟩ :=
            innerL_log_head sn rf 0 ch ch2 lc hch p2 hp2
          obtain ⟨hT1, hS1⟩ := hbad
          have hTc : namedAt cs00 0 (j2 :: p3) tT := by
            have := (namedAt_cons_deep (.other kd cs00) rest0
              i j2 p3 tT).mp hT1
            simpa [MdxNode.childrenOf] using this
          have hSc := (noScopeAbove_cons_deep tS (.other kd cs00)
            rest0 i j2 p3).mp hS1
          refine hsafec hg (j2 :: p3) hp2 ⟨hTc, ?_⟩
          simpa [MdxNode.childrenOf] using hSc.2
        · obtain ⟨j, p2, rfl, hij⟩ :=
            innerL_log_head sn rf (i+1) rest rest2 lr hrest p hp
          obtain ⟨hT1, hS1⟩ := hbad
          have hj : j ≠ i := by omega
          exact hsafer hg (j :: p2) hp
            ⟨(namedAt_cons_ne _ _ _ _ _ _ hj).mp hT1,
             (noScopeAbove_cons_ne _ _ _ _ _ _ hj).mp hS1⟩

/-! ### The outer walk preserves the evolution relation

`outerL_evg` extends `innerL_evg` to the whole transformation, under the
hypotheses of the amended scope-exclusivity claim: rename targets avoid
the active scope names, all renames draw their targets from `tns`, and
only scopes named `tS` carry `tT` as a source key. -/

theorem outerL_evg (tns : List String) (tT tS : String)
    (registry : ScopedMdxTransformRegistry) (sn active : List String)
    (hdisj : ∀ x ∈ tns, x ∉ active)
    (htgtAll : ∀ N m, activeRenameFlow registry N = some m →
      ∀ e ∈ m, e.2.component.name ∈ tns)
    (hTS : ∀ N m, activeRenameFlow registry N = some m →
      tT ∈ rfKeys m → N = tS) :
    ∀ i cs cs2 rl sl, outerL registry sn active i cs = .ok (cs2, rl, sl) →
      ∀ g cs0, EvGList tns tT tS g cs0 cs →
        EvGList tns tT tS g cs0 cs2 ∧
          (g = false → ∀ p ∈ rl,
            ¬ (namedAt cs0 i p tT ∧ noScopeAbove tS cs0 i p)) := by
  apply outerL_rec registry sn active
    (fun i cs cs2 rl _ => ∀ g cs0, EvGList tns tT tS g cs0 cs →
      EvGList tns tT tS g cs0 cs2 ∧
        (g = false → ∀ p ∈ rl,
          ¬ (namedAt cs0 i p tT ∧ noScopeAbove tS cs0 i p)))
  · intro i g cs0 hev
    cases hev
    refine ⟨.nil, ?_⟩
    intro _ p hp
    simp at hp
  · -- matched scope root with truthy rename map
    intro i k a ch rest rfn ch1 il ch2 rl2 sl2 rest2 rlr slr hk hrfn hin
      hch ihc hrest ihr g cs0 hev
    cases hev with
    | cons hc hl =>
      rename_i c0 rest0
      obtain ⟨hrest2, hsafer⟩ := ihr g rest0 hl
      cases hc with
      | keep hlk =>
        rename_i cs00
        have hTgCond : tT ∈ rfKeys rfn →
            (g || decide ((some k : Option String) = some tS)) = true := by
          intro h2
          have hkS : k = tS := hTS k rfn hrfn h2
          simp [hkS]
        obtain ⟨hch1ev, hsafeIn⟩ :=
          innerL_evg tns tT tS sn rfn (htgtAll k rfn hrfn) 0 ch ch1 il hin
            (g || decide ((some k : Option String) = some tS)) cs00 hlk
            hTgCond
        obtain ⟨hch2ev, hsafeOut⟩ :=
          ihc (g || decide ((some k : Option String) = some tS)) cs00 hch1ev
        refine ⟨.cons (.keep hch2ev) hrest2, ?_⟩
        intro hg p hp hbad
        simp only [List.mem_append, List.mem_map] at hp
        rcases hp with (⟨p2, hp2, rfl⟩ | ⟨p2, hp2, rfl⟩) | hp
        · obtain ⟨j2, p3, rfl, _⟩ :=
            innerL_log_head sn rfn 0 ch ch1 il hin p2 hp2
          obtain ⟨hT1, hS1⟩ := hbad
          have hTc : namedAt cs00 0 (j2 :: p3) tT := by
            have := (namedAt_cons_deep (.flow (some k) a cs00) rest0
              i j2 p3 tT).mp hT1
            simpa [MdxNode.childrenOf] using this
          have hSc := (noScopeAbove_cons_deep tS (.flow (some k) a cs00)
            rest0 i j2 p3).mp hS1
          have hknS : k ≠ tS := by
            have := hSc.1
            simpa [MdxNode.nodeName] using this
          have hg1 : (g || decide ((some k : Option String) = some tS))
              = false := by
            simp [hg, hknS]
          refine hsafeIn hg1 (j2 :: p3) hp2 ⟨hTc, ?_⟩
          simpa [MdxNode.childrenOf] using hSc.2
        · obtain ⟨j2, p3, rfl, _⟩ :=
            outerL_log_head registry sn active 0 ch1 ch2 rl2 sl2 hch p2 hp2
          obtain ⟨hT1, hS1⟩ := hbad
          have hTc : namedAt cs00 0 (j2 :: p3) tT := by
            have := (namedAt_cons_deep (.flow (some k) a cs00) rest0
              i j2 p3 tT).mp hT1
            simpa [MdxNode.childrenOf] using this
          have hSc := (noScopeAbove_cons_deep tS (.flow (some k) a cs00)
            rest0 i j2 p3).mp hS1
          have hknS : k ≠ tS := by
            have := hSc.1
            simpa [MdxNode.nodeName] using this
          have hg1 : (g || decide ((some k : Option String) = some tS))
              = false := by
            simp [hg, hknS]
          refine hsafeOut hg1 (j2 :: p3) hp2 ⟨hTc, ?_⟩
          simpa [MdxNode.childrenOf] using hSc.2
        · obtain ⟨j, p2, rfl, hij⟩ :=
            outerL_log_head registry sn active (i+1) rest rest2 rlr slr
              hrest p hp
          obtain ⟨hT1, hS1⟩ := hbad
          have hj : j ≠ i := by omega
          exact hsafer hg (j :: p2) hp
            ⟨(namedAt_cons_ne _ _ _ _ _ _ hj).mp hT1,
             (noScopeAbove_cons_ne _ _ _ _ _ _ hj).mp hS1⟩
      | ren htm hcond0 hlk =>
        exact absurd hk (hdisj k htm)
      | renClear htm hcond0 =>
        exact absurd hk (hdisj k htm)
  · -- matched scope root whose visitor early-returns
    intro i k a ch rest ch2 rl2 sl2 rest2 rlr slr hk hrfn hch ihc
      hrest ihr g cs0 hev
    cases hev with
    | cons hc hl =>
      rename_i c0 rest0
      obtain ⟨hrest2, hsafer⟩ := ihr g rest0 hl
      cases hc with
      | keep hlk =>
        rename_i cs00
        obtain ⟨hch2ev, hsafeOut⟩ :=
          ihc (g || decide ((some k : Option String) = some tS)) cs00 hlk
        refine ⟨.cons (.keep hch2ev) hrest2, ?_⟩
        intro hg p hp hbad
        simp only [List.mem_append, List.mem_map] at hp
        rcases hp with ⟨p2, hp2, rfl⟩ | hp
        · obtain ⟨j2, p3, rfl, _⟩ :=
            outerL_log_head registry sn active 0 ch ch2 rl2 sl2 hch p2 hp2
          obtain ⟨hT1, hS1⟩ := hbad
          have hTc : namedAt cs00 0 (j2 :: p3) tT := by
            have := (namedAt_cons_deep (.flow (some k) a cs00) rest0
              i j2 p3 tT).mp hT1
            simpa [MdxNode.childrenOf] using this
          have hSc := (noScopeAbove_cons_deep tS (.flow (some k) a cs00)
            rest0 i j2 p3).mp hS1
          have hknS : k ≠ tS := by
            have := hSc.1
            simpa [MdxNode.nodeName] using this
          have hg1 : (g || decide ((some k : Option String) = some tS))
              = false := by
            simp [hg, hknS]
          refine hsafeOut hg1 (j2 :: p3) hp2 ⟨hTc, ?_⟩
          simpa [MdxNode.childrenOf] using hSc.2
        · obtain ⟨j, p2, rfl, hij⟩ :=
            outerL_log_head registry sn active (i+1) rest rest2 rlr slr
              hrest p hp
          obtain ⟨hT1, hS1⟩ := hbad
          have hj : j ≠ i := by omega
          exact hsafer hg (j :: p2) hp
            ⟨(namedAt_cons_ne _ _ _ _ _ _ hj).mp hT1,
             (noScopeAbove_cons_ne _ _ _ _ _ _ hj).mp hS1⟩
      | ren htm hcond0 hlk =>
        exact absurd hk (hdisj k htm)
      | renClear htm hcond0 =>
        exact absurd hk (hdisj k htm)
  · -- unmatched named flow element
    intro i k a ch rest ch2 rl2 sl2 rest2 rlr slr hk hch ihc
      hrest ihr g cs0 hev
    cases hev with
    | cons hc hl =>
      rename_i c0 rest0
      obtain ⟨hrest2, hsafer⟩ := ihr g rest0 hl
      cases hc with
      | keep hlk =>
        rename_i cs00
        obtain ⟨hch2ev, hsafeOut⟩ :=
          ihc (g || decide ((some k : Option String) = some tS)) cs00 hlk
        refine ⟨.cons (.keep hch2ev) hrest2, ?_⟩
        intro hg p hp hbad
        simp only [List.mem_append, List.mem_map] at hp
        rcases hp with ⟨p2, hp2, rfl⟩ | hp
        · obtain ⟨j2, p3, rfl, _⟩ :=
            outerL_log_head registry sn active 0 ch ch2 rl2 sl2 hch p2 hp2
          obtain ⟨hT1, hS1⟩ := hbad
          have hTc : namedAt cs00 0 (j2 :: p3) tT := by
            have := (namedAt_cons_deep (.flow (some k) a cs00) rest0
              i j2 p3 tT).mp hT1
            simpa [MdxNode.childrenOf] using this
          have hSc := (noScopeAbove_cons_deep tS (.flow (some k) a cs00)
            rest0 i j2 p3).mp hS1
          have hknS : k ≠ tS := by
            have := hSc.1
            simpa [MdxNode.nodeName] using this
          have hg1 : (g || decide ((some k : Option String) = some tS))
              = false := by
            simp [hg, hknS]
          refine hsafeOut hg1 (j2 :: p3) hp2 ⟨hTc, ?_⟩
          simpa [MdxNode.childrenOf] using hSc.2
        · obtain ⟨j, p2, rfl, hij⟩ :=
            outerL_log_head registry sn active (i+1) rest rest2 rlr slr
              hrest p hp
          obtain ⟨hT1, hS1⟩ := hbad
          have hj : j ≠ i := by omega
          exact hsafer hg (j :: p2) hp
            ⟨(namedAt_cons_ne _ _ _ _ _ _ hj).mp hT1,
             (noScopeAbove_cons_ne _ _ _ _ _ _ hj).mp hS1⟩
      | ren htm hcond0 hlk =>
        rename_i n0 a0 cs00
        obtain ⟨hch2ev, hsafeOut⟩ :=
          ihc (g || decide (n0 = some tS)) cs00 hlk
        refine ⟨.cons (.ren htm hcond0 hch2ev) hrest2, ?_⟩
        intro hg p hp hbad
        simp only [List.mem_append, List.mem_map] at hp
        rcases hp with ⟨p2, hp2, rfl⟩ | hp
        · obtain ⟨j2, p3, rfl, _⟩ :=
            outerL_log_head registry sn active 0 ch ch2 rl2 sl2 hch p2 hp2
          obtain ⟨hT1, hS1⟩ := hbad
          have hTc : namedAt cs00 0 (j2 :: p3) tT := by
            have := (namedAt_cons_deep (.flow n0 a0 cs00) rest0
              i j2 p3 tT).mp hT1
            simpa [MdxNode.childrenOf] using this
          have hSc := (noScopeAbove_cons_deep tS (.flow n0 a0 cs00)
            rest0 i j2 p3).mp hS1
          have hknS : n0 ≠ some tS := by
            have := hSc.1
            simpa [MdxNode.nodeName] using this
          have hg1 : (g || decide (n0 = some tS)) = false := by
            simp [hg, hknS]
          refine hsafeOut hg1 (j2 :: p3) hp2 ⟨hTc, ?_⟩
          simpa [MdxNode.childrenOf] using hSc.2
        · obtain ⟨j, p2, rfl, hij⟩ :=
            outerL_log_head registry sn active (i+1) rest rest2 rlr slr
              hrest p hp
          obtain ⟨hT1, hS1⟩ := hbad
          have hj : j ≠ i := by omega
          exact hsafer hg (j :: p2) hp
            ⟨(namedAt_cons_ne _ _ _ _ _ _ hj).mp hT1,
             (noScopeAbove_cons_ne _ _ _ _ _ _ hj).mp hS1⟩
      | renClear htm hcond0 =>
        rename_i n0 a0 cs00
        have hche : ch2 = [] ∧ rl2 = [] := by
          simp only [outerL, Except.ok.injEq, Prod.mk.injEq] at hch
          exact ⟨hch.1.symm, hch.2.1.symm⟩
        obtain ⟨rfl, rfl⟩ := hche
        refine ⟨.cons (.renClear htm hcond0) hrest2, ?_⟩
        intro hg p hp hbad
        simp only [List.map_nil, List.nil_append] at hp
        obtain ⟨j, p2, rfl, hij⟩ :=
          outerL_log_head registry sn active (i+1) rest rest2 rlr slr
            hrest p hp
        obtain ⟨hT1, hS1⟩ := hbad
        have hj : j ≠ i := by omega
        exact hsafer hg (j :: p2) hp
          ⟨(namedAt_cons_ne _ _ _ _ _ _ hj).mp hT1,
           (noScopeAbove_cons_ne _ _ _ _ _ _ hj).mp hS1⟩
  · -- unnamed flow element
    intro i a ch rest ch2 rl2 sl2 rest2 rlr slr hch ihc hrest ihr g cs0 hev
    cases hev with
    | cons hc hl =>
      rename_i c0 rest0
      obtain ⟨hrest2, hsafer⟩ := ihr g rest0 hl
      cases hc with
      | keep hlk =>
        rename_i cs00
        obtain ⟨hch2ev, hsafeOut⟩ :=
          ihc (g || decide ((none : Option String) = some tS)) cs00 hlk
        refine ⟨.cons (.keep hch2ev) hrest2, ?_⟩
        intro hg p hp hbad
        simp only [List.mem_append, List.mem_map] at hp
        rcases hp with ⟨p2, hp2, rfl⟩ | hp
        · obtain ⟨j2, p3, rfl, _⟩ :=
            outerL_log_head registry sn active 0 ch ch2 rl2 sl2 hch p2 hp2
          obtain ⟨hT1, hS1⟩ := hbad
          have hTc : namedAt cs00 0 (j2 :: p3) tT := by
            have := (namedAt_cons_deep (.flow none a cs00) rest0
              i j2 p3 tT).mp hT1
            simpa [MdxNode.childrenOf] using this
          have hSc := (noScopeAbove_cons_deep tS (.flow none a cs00)
            rest0 i j2 p3).mp hS1
          have hg1 : (g || decide ((none : Option String) = some tS))
              = false := by
            simp [hg]
          refine hsafeOut hg1 (j2 :: p3) hp2 ⟨hTc, ?_⟩
          simpa [MdxNode.childrenOf] using hSc.2
        · obtain ⟨j, p2, rfl, hij⟩ :=
            outerL_log_head registry sn active (i+1) rest rest2 rlr slr
              hrest p hp
          obtain ⟨hT1, hS1⟩ := hbad
          have hj : j ≠ i := by omega
          exact hsafer hg (j :: p2) hp
            ⟨(namedAt_cons_ne _ _ _ _ _ _ hj).mp hT1,
             (noScopeAbove_cons_ne _ _ _ _ _ _ hj).mp hS1⟩
  · -- other node
    intro i kd ch rest ch2 rl2 sl2 rest2 rlr slr hch ihc hrest ihr g cs0 hev
    cases hev with
    | cons hc hl =>
      rename_i c0 rest0
      obtain ⟨hrest2, hsafer⟩ := ihr g rest0 hl
      cases hc with
      | other hlk =>
        rename_i cs00
        obtain ⟨hch2ev, hsafeOut⟩ := ihc g cs00 hlk
        refine ⟨.cons (.other hch2ev) hrest2, ?_⟩
        intro hg p hp hbad
        simp only [List.mem_append, List.mem_map] at hp
        rcases hp with ⟨p2, hp2, rfl⟩ | hp
        · obtain ⟨j2, p3, rfl, _⟩ :=
            outerL_log_head registry sn active 0 ch ch2 rl2 sl2 hch p2 hp2
          obtain ⟨hT1, hS1⟩ := hbad
          have hTc : namedAt cs00 0 (j2 :: p3) tT := by
            have := (namedAt_cons_deep (.other kd cs00) rest0
              i j2 p3 tT).mp hT1
            simpa [MdxNode.childrenOf] using this
          have hSc := (noScopeAbove_cons_deep tS (.other kd cs00)
            rest0 i j2 p3).mp hS1
          refine hsafeOut hg (j2 :: p3) hp2 ⟨hTc, ?_⟩
          simpa [MdxNode.childrenOf] using hSc.2
        · obtain ⟨j, p2, rfl, hij⟩ :=
            outerL_log_head registry sn active (i+1) rest rest2 rlr slr
              hrest p hp
          obtain ⟨hT1, hS1⟩ := hbad
          have hj : j ≠ i := by omega
          exact hsafer hg (j :: p2) hp
            ⟨(namedAt_cons_ne _ _ _ _ _ _ hj).mp hT1,
             (noScopeAbove_cons_ne _ _ _ _ _ _ hj).mp hS1⟩

theorem c4_amended_witness :
    ([0] ∈ ([[0], [0, 0]] : List (List Nat))) ∧
    ([0, 0] ∈ ([[0], [0, 0]] : List (List Nat))) ∧
    underPath [0, 0] [0] = true ∧ ([0, 0] : List Nat) ≠ [0] := by
  have hB1 := innerB_eval ["Outer", "Inner"] [] 0
    [.flow (some "Inner") [] []] ([.flow (some "Inner") [] []], [])
    (by simp [countList, countNode]) innerL_evalC4
  have hB2 := innerB_eval ["Outer", "Inner"] [] 0 [] ([], [])
    (le_refl _) (by simp [innerL])
  have hrun : runScoped regC4
      (.flow (some "Outer") [] [.flow (some "Inner") [] []]) =
      .ok ([.flow (some "Outer") [] [.flow (some "Inner") [] []]],
        [], [[0], [0, 0]]) := by
    simp [runScoped, outerL, regC4, scopeComponentNames, activeScopeNames,
      activeRenameFlow, lookupStr, truthyRenameFlow, hasOwnRenameFlow,
      hB1, hB2]
  exact c4_amended regC4 "Outer" [] [.flow (some "Inner") [] []] _ _ _
    [] 0 (.flow (some "Inner") [] []) "Inner" hrun
    (by simp [activeScopeNames, regC4, hasOwnRenameFlow])
    (by simp [activeRenameFlow, regC4, lookupStr, truthyRenameFlow])
    (by simp) rfl
    (by simp [activeScopeNames, regC4, hasOwnRenameFlow])

/-! ### Claim C1 amended: the whole-pass frame property -/

/-- Registry for the amended claim C1's witness: a single scope `S`
renaming `T` to `Z`; the target name `Z` is not itself a registry key. -/
def regW1 : ScopedMdxTransformRegistry :=
  [("S", ⟨.declared [("T", mkTarget "Z")]⟩)]

/-- Tree for the amended claim C1's witness: the root holds a `T` node
outside the `S` scope (position `[0,0]`) next to an `S` scope holding
its own `T` node (position `[0,1,0]`). -/
def treeW1 : MdxNode :=
  .other "root"
    [.flow (some "T") [] [],
     .flow (some "S") [] [.flow (some "T") [] []]]

theorem innerL_evalW1 :
    innerL ["S"] [("T", mkTarget "Z")] 0 [.flow (some "T") [] []] =
      .ok ([.flow (some "Z") [] []], [[0]]) := by
  simp [innerL, lookupStr, applyFlowRename, buildAttributes, isClearPolicy,
    mkTarget]

/-- **Claim C1 (amended).** For any tag name `tT` appearing as a source
key only in the rename map of the scope named `tS` (hypothesis `h2`),
and provided no rewrite target component name of the registry is itself
an active scope name — a registry key whose entry declares `renameFlow`
(hypothesis `h1`, which rules out the rename-to-scope cascade of
`c1_counterexample`; a target colliding with a `renameFlow`-less
boundary key is harmless), every node named `tT` sitting outside every
`tS`-rooted subtree of the input tree is never passed to the rename
applier: its position is absent from the rename log of the whole
transformation. -/
theorem c1_amended (registry : ScopedMdxTransformRegistry)
    (tT tS : String) (tree : MdxNode) (ts : List MdxNode)
    (rl sl : List (List Nat))
    (hrun : runScoped registry tree = .ok (ts, rl, sl))
    (h1 : ∀ x ∈ registryTargetNames registry,
      x ∉ activeScopeNames registry)
    (h2 : ∀ N m, activeRenameFlow registry N = some m →
      tT ∈ rfKeys m → N = tS)
    (p : List Nat) (hT : namedAt [tree] 0 p tT)
    (hS : noScopeAbove tS [tree] 0 p) : p ∉ rl := by
  intro hp
  have hout : outerL registry (scopeComponentNames registry)
      (activeScopeNames registry) 0 [tree] = .ok (ts, rl, sl) := hrun
  have hev0 : EvGList (registryTargetNames registry) tT tS false
      [tree] [tree] :=
    evgList_refl (registryTargetNames registry) tT tS
      (countList [tree]) [tree] (le_refl _) false
  have hmain := outerL_evg (registryTargetNames registry) tT tS registry
    (scopeComponentNames registry) (activeScopeNames registry) h1
    (fun N m hm => activeRenameFlow_targets registry N m hm) h2
    0 [tree] ts rl sl hout false [tree] hev0
  exact hmain.2 rfl p hp ⟨hT, hS⟩

/-- Witness for the amended claim C1: with registry `regW1` and tree
`treeW1`, all hypotheses hold concretely and the out-of-scope `T` node's
position `[0,0]` is indeed absent from the rename log `[[0,1,0]]`. -/
theorem c1_amended_witness :
    ([0, 0] : List Nat) ∉ ([[0, 1, 0]] : List (List Nat)) := by
  have hB := innerB_eval ["S"] [("T", mkTarget "Z")] 0
    [.flow (some "T") [] []] ([.flow (some "Z") [] []], [[0]])
    (by simp [countList, countNode]) innerL_evalW1
  have hrun : runScoped regW1 treeW1 =
      .ok ([.other "root"
          [.flow (some "T") [] [],
           .flow (some "S") [] [.flow (some "Z") [] []]]],
        [[0, 1, 0]], [[0, 1]]) := by
    simp [runScoped, outerL, regW1, treeW1, scopeComponentNames,
      activeScopeNames, activeRenameFlow, lookupStr, truthyRenameFlow,
      hasOwnRenameFlow, hB]
  have h1 : ∀ x ∈ registryTargetNames regW1,
      x ∉ activeScopeNames regW1 := by
    simp [registryTargetNames, activeScopeNames, regW1,
      truthyRenameFlow, hasOwnRenameFlow, rfTargetNames, mkTarget]
  have h2 : ∀ N m, activeRenameFlow regW1 N = some m →
      "T" ∈ rfKeys m → N = "S" := by
    intro N m hm _
    by_cases hN : N = "S"
    · exact hN
    · exfalso
      have hN2 : ¬ ("S" = N) := fun h => hN h.symm
      have hnone : lookupStr regW1 N = none := by
        simp [regW1, lookupStr, hN2]
      unfold activeRenameFlow at hm
      rw [hnone] at hm
      exact absurd hm (by simp)
  have hT : namedAt [treeW1] 0 [0, 0] "T" := by
    refine ⟨.flow (some "T") [] [], ?_, rfl⟩
    simp [treeW1, nodeAtL, MdxNode.childrenOf]
  have hS : noScopeAbove "S" [treeW1] 0 [0, 0] := by
    intro q hq
    match q with
    | [] => exact not_namedAt_nil_pos _ _ _
    | [a] =>
      simp only [underPath, underPath_any_nil, Bool.and_true,
        beq_iff_eq] at hq
      subst hq
      intro hn
      have := (namedAt_cons_self treeW1 [] 0 "S").mp hn
      simp [treeW1, MdxNode.nodeName] at this
    | [a, b] =>
      simp only [underPath, underPath_any_nil, Bool.and_true,
        beq_iff_eq, Bool.and_eq_true] at hq
      obtain ⟨ha, hb⟩ := hq
      subst ha
      subst hb
      intro hn
      have hch := (namedAt_cons_deep treeW1 [] 0 0 [] "S").mp hn
      simp only [treeW1, MdxNode.childrenOf] at hch
      have := (namedAt_cons_self (.flow (some "T") [] [])
        [.flow (some "S") [] [.flow (some "T") [] []]] 0 "S").mp hch
      simp [MdxNode.nodeName] at this
    | a :: b :: c :: q2 =>
      simp [underPath] at hq
  exact c1_amended regW1 "T" "S" treeW1
    [.other "root"
      [.flow (some "T") [] [],
       .flow (some "S") [] [.flow (some "Z") [] []]]]
    [[0, 1, 0]] [[0, 1]] hrun h1 h2 [0, 0] hT hS

/-- Witness for the amended claim C5: the inner-walk rename log of claim
C5's counterexample scope (`S` over `p > q`) has no duplicate
positions. -/
theorem c5_amended_witness :
    ([[0], [0, 0]] : List (List Nat)).Nodup :=
  c5_amended ["S", "Inner"] [("p", mkTarget "Inner"), ("q", mkTarget "u")]
    0 [.flow (some "p") [] [.flow (some "q") [] []]]
    [.flow (some "Inner") [] [.flow (some "u") [] []]]
    [[0], [0, 0]] innerL_evalC5a

end ScopedMdx
